import Mathlib

/-!
Shallow embedding of the fency-pgn chess board-state engine
(src/utils/{color,piece,coord,figure,castling,draw,game}.rs).

Rust machine integers (`i8`, `u16`) are modelled as `Int`/`Nat`; every place
where the Rust code can panic (`unwrap`, out-of-bounds indexing, failed
`assert!`) is modelled by an `Option` returning `none`.  `HashSet<Figure>` is
modelled as a `List Figure` whose order stands for one iteration order of the
set; `HashSet::insert` is `List.insert` (no-op when present, cons otherwise)
and `HashSet::remove` is `List.erase`.
-/

set_option maxRecDepth 10000

namespace FencyPgn

/-- `Color` from src/utils/color.rs. -/
inductive Color
  | W
  | B
deriving DecidableEq, Repr

/-- `Color::next` — toggles the side to move. -/
def Color.next : Color → Color
  | .W => .B
  | .B => .W

/-- `Color::factor` — pawn advance sign (White +1, Black −1). -/
def Color.factor : Color → Int
  | .W => 1
  | .B => -1

/-- `Color::is_white`. -/
def Color.is_white : Color → Bool
  | .W => true
  | .B => false

/-- `Color::is_black`. -/
def Color.is_black : Color → Bool
  | .W => false
  | .B => true

/-- `Display for Color` — renders "w" / "b". -/
def Color.render : Color → List Char
  | .W => ['w']
  | .B => ['b']

/-- `Color::from(char)` — asserts the char is 'w' or 'b' (panic → `none`). -/
def Color.from_char (c : Char) : Option Color :=
  if c = 'w' then some .W else if c = 'b' then some .B else none

/-- `Piece` from src/utils/piece.rs. -/
inductive Piece
  | P
  | R
  | N
  | B
  | Q
  | K
deriving DecidableEq, Repr

/-- `Piece::from(char)` — note the catch-all arm defaulting to pawn. -/
def Piece.from_char (c : Char) : Piece :=
  if c = 'r' ∨ c = 'R' then .R
  else if c = 'n' ∨ c = 'N' then .N
  else if c = 'b' ∨ c = 'B' then .B
  else if c = 'q' ∨ c = 'Q' then .Q
  else if c = 'k' ∨ c = 'K' then .K
  else .P

/-- `Piece::to_char` — uppercase for White, lowercase for Black. -/
def Piece.to_char : Piece → Color → Char
  | .R, .W => 'R'
  | .N, .W => 'N'
  | .B, .W => 'B'
  | .Q, .W => 'Q'
  | .K, .W => 'K'
  | .P, .W => 'P'
  | .R, .B => 'r'
  | .N, .B => 'n'
  | .B, .B => 'b'
  | .Q, .B => 'q'
  | .K, .B => 'k'
  | .P, .B => 'p'

/-- `Coord` from src/utils/coord.rs: file/rank chars plus the cached integer
fields (`i8` in Rust, `Int` here). -/
structure Coord where
  file : Char
  rank : Char
  x : Int
  y : Int
  idx : Int
  anti_diagonal : Int
  main_diagonal : Int
deriving DecidableEq, Repr

/-- `char as i8` in Rust: truncate the scalar value to 8 bits, two's complement. -/
def i8OfChar (c : Char) : Int :=
  let n := c.toNat % 256
  if n < 128 then (n : Int) else (n : Int) - 256

/-- Debug-mode `i8` arithmetic: a result outside `[-128,127]` panics (→ `none`). -/
def i8chk (r : Int) : Option Int :=
  if r < -128 ∨ 127 < r then none else some r

/-- `Coord::from(&str)` restricted to a two-character token, given as the two
chars.  Mirrors the Rust computation step by step: `x = file as i8 - 'a' as i8`,
`y = rank as i8 - '1' as i8`, `idx = x + 8*(7-y)`, the two diagonal keys, and
finally the assertion `x < 8 && y < 8` — note there is no lower-bound check. -/
def coordFromChars (fc rc : Char) : Option Coord := do
  let x ← i8chk (i8OfChar fc - 97)
  let y ← i8chk (i8OfChar rc - 49)
  let t1 ← i8chk (7 - y)
  let t2 ← i8chk (8 * t1)
  let idx ← i8chk (x + t2)
  let ad ← i8chk (x + y)
  let m1 ← i8chk (7 + y)
  let md ← i8chk (m1 - x)
  if x < 8 ∧ y < 8 then
    some ⟨fc, rc, x, y, idx, ad, md⟩
  else
    none

/-- `Coord::from` on a string (list of chars): the `assert_eq!(field.len(), 2)`
then the char-wise parse. -/
def coordFromStr (s : List Char) : Option Coord :=
  match s with
  | [fc, rc] => coordFromChars fc rc
  | _ => none

/-- The value `Coord::from` computes on an in-range algebraic token
(file in 'a'..'h', rank in '1'..'8'); total helper used to embed coordinates
the Rust code builds from trusted literals. -/
def coordAb (fc rc : Char) : Coord :=
  ⟨fc, rc, (fc.toNat : Int) - 97, (rc.toNat : Int) - 49,
    ((fc.toNat : Int) - 97) + 8 * (7 - ((rc.toNat : Int) - 49)),
    ((fc.toNat : Int) - 97) + ((rc.toNat : Int) - 49),
    7 + ((rc.toNat : Int) - 49) - ((fc.toNat : Int) - 97)⟩

/-- `Coord::from_idx` for `0 ≤ idx < 64` (the only calls the engine makes):
`x = idx % 8`, `y = 7 - idx / 8`, then the chars, then the same cached fields
`Coord::from` would rebuild. -/
def coordOfIdx (i : Nat) : Coord :=
  ⟨Char.ofNat (i % 8 + 97), Char.ofNat (7 - i / 8 + 49),
    ((i % 8 : Nat) : Int), ((7 - i / 8 : Nat) : Int),
    ((i % 8 : Nat) : Int) + 8 * (7 - ((7 - i / 8 : Nat) : Int)),
    ((i % 8 : Nat) : Int) + ((7 - i / 8 : Nat) : Int),
    7 + ((7 - i / 8 : Nat) : Int) - ((i % 8 : Nat) : Int)⟩

/-- `Display for Coord` — file char then rank char. -/
def coordRender (c : Coord) : List Char := [c.file, c.rank]

/-- `Figure` from src/utils/figure.rs. -/
structure Figure where
  color : Color
  coord : Coord
  piece : Piece
deriving DecidableEq, Repr

/-- `Figure::to_char`. -/
def Figure.to_char (f : Figure) : Char := f.piece.to_char f.color

/-- `Figure::move_to` — same owner and kind at a new square. -/
def Figure.move_to (f : Figure) (c : Coord) : Figure :=
  ⟨f.color, c, f.piece⟩

/-- `Figure::from(&str)` on a trusted 3-char literal `pXY`: color from the
case of the piece letter, coord from the remaining two chars. -/
def figureOfChars (pc fc rc : Char) : Figure :=
  ⟨if pc.isUpper then .W else .B, coordAb fc rc, Piece.from_char pc⟩

/-- `Castling` from src/utils/castling.rs. -/
structure Castling where
  white_kingside : Bool
  white_queenside : Bool
  black_kingside : Bool
  black_queenside : Bool
deriving DecidableEq, Repr

/-- `Castling::new` — all four rights. -/
def Castling.new : Castling := ⟨true, true, true, true⟩

/-- `Castling::castle` — drops both rights of the castling color. -/
def Castling.castle (c : Castling) : Color → Castling
  | .W => ⟨false, false, c.black_kingside, c.black_queenside⟩
  | .B => ⟨c.white_kingside, c.white_queenside, false, false⟩

/-- `Castling::update` — rook moves off a home square clear one right, king
moves clear both of that color. -/
def Castling.update (c : Castling) (f : Figure) : Castling :=
  if f.piece = .R then
    if f.color = .W then
      if f.coord.idx = 56 then { c with white_queenside := false }
      else if f.coord.idx = 63 then { c with white_kingside := false }
      else c
    else
      if f.coord.idx = 0 then { c with black_queenside := false }
      else if f.coord.idx = 7 then { c with black_kingside := false }
      else c
  else if f.piece = .K then
    if f.color = .W then { c with white_kingside := false, white_queenside := false }
    else { c with black_kingside := false, black_queenside := false }
  else c

/-- `Castling::from(&str)` — independent membership test per letter. -/
def Castling.from_chars (s : List Char) : Castling :=
  ⟨s.contains 'K', s.contains 'Q', s.contains 'k', s.contains 'q'⟩

/-- `Display for Castling` — "KQkq" subset in fixed order, "-" when empty. -/
def Castling.render (c : Castling) : List Char :=
  let ca :=
    (if c.white_kingside then ['K'] else []) ++
    (if c.white_queenside then ['Q'] else []) ++
    (if c.black_kingside then ['k'] else []) ++
    (if c.black_queenside then ['q'] else [])
  if ca = [] then ['-'] else ca

/-- The `Draw` move descriptor from src/utils/draw.rs (the decomposed SAN
token; the raw `san` string field is carried only for display in Rust and is
omitted).  Castling tokens never reach this structure. -/
structure Draw where
  target : Coord
  piece : Piece
  is_check : Bool
  is_checkmate : Bool
  is_promo : Bool
  is_hit : Bool
  promoted_piece : Option Piece
  remainder_file : Option Char
  remainder_rank : Option Char
deriving DecidableEq, Repr

/-- A move token as dispatched by `Game::play_move`: a string containing
"O-O" goes to the castling branch (queenside iff it contains "O-O-O"),
anything else is parsed into a `Draw`. -/
inductive Token
  | castleTok (queenside : Bool)
  | normal (d : Draw)
deriving DecidableEq, Repr

/-- `Game` from src/utils/game.rs. -/
structure Game where
  board : List Coord
  position : List (Option Figure)
  figures : List Figure
  color : Color
  castling : Castling
  en_passant : Option Coord
  half_move_clock : Nat
  full_move_clock : Nat
  uci : List Char
deriving DecidableEq, Repr

/-- `get_board()` — the 64 coords in index order. -/
def mkBoard : List Coord := (List.range 64).map coordOfIdx

/-- `valid_idx` — `(0..64).contains(&idx)`. -/
def valid_idx (i : Int) : Bool := decide (0 ≤ i ∧ i < 64)

/-- Rust `self.position[i as usize]` as a fallible read: negative `i` or an
index beyond the vector's length panics (→ `none`). -/
def posGet? (l : List (Option Figure)) (i : Int) : Option (Option Figure) :=
  if i < 0 then none else l.get? i.toNat

/-- Rust `self.position[i as usize] = v` as a fallible write. -/
def posSet? (l : List (Option Figure)) (i : Int) (v : Option Figure) :
    Option (List (Option Figure)) :=
  if 0 ≤ i ∧ i.toNat < l.length then some (l.set i.toNat v) else none

/-- Rust `self.board[i as usize]` as a fallible read. -/
def boardGet? (l : List Coord) (i : Int) : Option Coord :=
  if i < 0 then none else l.get? i.toNat

/-- Junk coordinate used as the total-read default; never produced by
`mkBoard`, and every use is guarded by `valid_idx` plus the 64-length
well-formedness assumed by the theorems. -/
def noCoord : Coord := ⟨' ', ' ', -99, -99, -99, -99, -99⟩

/-- Total board read used inside move generation, where the Rust access
`game.board[ti as usize]` is always guarded by `valid_idx(ti)`. -/
def boardAt (g : Game) (i : Int) : Coord := (boardGet? g.board i).getD noCoord

/-- Total position read used inside move generation, where the Rust access
`game.position[ti as usize]` is always guarded by `valid_idx(ti)`. -/
def posAt (g : Game) (i : Int) : Option Figure := (posGet? g.position i).getD none

/-- `get_pawn_hits`: one capture direction (`ti = ci - f*i` for `i ∈ {7,9}`):
pushed when in range and enemy-occupied, or in range, empty, and equal to the
en-passant target's index. -/
def pawnHitDir (fig : Figure) (g : Game) (ti : Int) : List Int :=
  if valid_idx ti && (posAt g ti).isSome then
    match posAt g ti with
    | some q => if q.color ≠ fig.color then [ti] else []
    | none => []
  else if valid_idx ti && (match g.en_passant with
      | some e => decide (e.idx = ti)
      | none => false) then
    [ti]
  else []

/-- `get_pawn_hits` from src/utils/game.rs — note: pure index arithmetic,
with no check that the target stays on an adjacent file. -/
def get_pawn_hits (fig : Figure) (g : Game) : List Int :=
  pawnHitDir fig g (fig.coord.idx - fig.color.factor * 7) ++
    pawnHitDir fig g (fig.coord.idx - fig.color.factor * 9)

/-- `get_pawn_moves`: single step ahead if empty; additionally the double step
from the starting rank when the single step was available. -/
def get_pawn_moves (fig : Figure) (g : Game) : List Int :=
  let ci := fig.coord.idx
  let f := fig.color.factor
  let ti := ci - f * 8
  let first := if valid_idx ti ∧ posAt g ti = none then [ti] else []
  let second :=
    if (fig.color.is_white ∧ fig.coord.y = 1) ∨ (fig.color.is_black ∧ fig.coord.y = 6) then
      let tii := ci - f * 16
      if valid_idx tii ∧ posAt g ti = none ∧ first ≠ [] then [tii] else []
    else []
  first ++ second

/-- `get_knight_moves`: the 8 jump offsets, each validated by index range and
a file-distance check, destination empty or enemy. -/
def get_knight_moves (fig : Figure) (g : Game) : List Int :=
  [(-17 : Int), -15, -10, -6, 6, 10, 15, 17].foldl
    (fun acc i =>
      let ti := fig.coord.idx + i
      if valid_idx ti && decide ((fig.coord.x - (boardAt g ti).x).natAbs < 3) &&
          ((posAt g ti).isNone || (match posAt g ti with
            | some q => decide (q.color ≠ fig.color)
            | none => false)) then
        acc ++ [ti]
      else acc) []

/-- One sliding ray (`while unblocked && valid_idx(ti) && onLine` loop of
`get_bishop_moves` / `get_rook_moves`).  The fuel bound 64 strictly exceeds
the iterations any Rust run can make, so the two agree. -/
def rayGo (g : Game) (fig : Figure) (d : Int) (onLine : Coord → Bool) :
    Nat → Int → List Int
  | 0, _ => []
  | fuel + 1, f =>
    let ti := fig.coord.idx + f * d
    if valid_idx ti ∧ onLine (boardAt g ti) then
      match posAt g ti with
      | none => ti :: rayGo g fig d onLine fuel (f + 1)
      | some q => if q.color ≠ fig.color then [ti] else []
    else []

/-- `get_bishop_moves`: 4 diagonal rays, ray membership tested by shared
diagonal key. -/
def get_bishop_moves (fig : Figure) (g : Game) : List Int :=
  [(-9 : Int), -7, 7, 9].foldl
    (fun acc d =>
      acc ++ rayGo g fig d
        (fun c => decide (c.main_diagonal = fig.coord.main_diagonal ∨
          c.anti_diagonal = fig.coord.anti_diagonal)) 64 1) []

/-- `get_rook_moves`: 4 orthogonal rays, ray membership tested by shared file
or rank value. -/
def get_rook_moves (fig : Figure) (g : Game) : List Int :=
  [(-8 : Int), -1, 1, 8].foldl
    (fun acc d =>
      acc ++ rayGo g fig d
        (fun c => decide (c.x = fig.coord.x ∨ c.y = fig.coord.y)) 64 1) []

/-- `get_queen_moves` — bishop rays then rook rays. -/
def get_queen_moves (fig : Figure) (g : Game) : List Int :=
  get_bishop_moves fig g ++ get_rook_moves fig g

/-- `get_king_moves` — transcribed exactly, including the guard as written in
the source: `(|fig.x − board[ti].x| ≤ 1) | (|fig.y − board[ti].x| ≤ 1)`
(the second comparison reads the target's `x`, and the two are joined
with `|`). -/
def get_king_moves (fig : Figure) (g : Game) : List Int :=
  [(-9 : Int), -8, -7, -1, 1, 7, 8, 9].foldl
    (fun acc i =>
      let ti := fig.coord.idx + i
      if valid_idx ti ∧ ((fig.coord.x - (boardAt g ti).x).natAbs ≤ 1 ∨
          (fig.coord.y - (boardAt g ti).x).natAbs ≤ 1) then
        match posAt g ti with
        | none => acc ++ [ti]
        | some q => if q.color ≠ fig.color then acc ++ [ti] else acc
      else acc) []

/-- `get_moves` — dispatch on piece kind, then map indices to coords through
the board table. -/
def get_moves (fig : Figure) (g : Game) : List Coord :=
  (match fig.piece with
    | .P => get_pawn_moves fig g
    | .R => get_rook_moves fig g
    | .N => get_knight_moves fig g
    | .B => get_bishop_moves fig g
    | .Q => get_queen_moves fig g
    | .K => get_king_moves fig g).map (boardAt g)

/-- `get_hits` — pawns use the dedicated capture set, everything else reuses
`get_moves`. -/
def get_hits (fig : Figure) (g : Game) : List Coord :=
  match fig.piece with
  | .P => (get_pawn_hits fig g).map (boardAt g)
  | _ => get_moves fig g

/-- `Game::find_king` — first figure of the given color with kind king
(`unwrap` panics when absent). -/
def find_king (g : Game) (c : Color) : Option Figure :=
  g.figures.find? (fun f => decide (f.piece = .K ∧ f.color = c))

/-- `Game::remove_figure` — drop the figure from the set and clear its array
slot, on fresh copies. -/
def remove_figure (g : Game) (f : Figure) : Option Game := do
  let pos ← posSet? g.position f.coord.idx none
  pure { g with figures := g.figures.erase f, position := pos }

/-- `Game::move_figure` — insert the relocated figure and remove the original
(in that order), then write the two array slots (target first, then source). -/
def move_figure (g : Game) (f : Figure) (t : Coord) : Option Game := do
  let moved := f.move_to t
  let figs := (List.insert moved g.figures).erase f
  let pos1 ← posSet? g.position t.idx (some moved)
  let pos2 ← posSet? pos1 f.coord.idx none
  pure { g with figures := figs, position := pos2 }

/-- Stage 1 list: figures of the side to move with the descriptor's kind. -/
def stage1list (draw : Draw) (g : Game) : List Figure :=
  g.figures.filter (fun f => decide (f.color = g.color ∧ f.piece = draw.piece))

/-- Stage 2 list: the disambiguator filter of `filter_on_remainder`. -/
def stage2list (figures : List Figure) (draw : Draw) : List Figure :=
  match draw.remainder_file, draw.remainder_rank with
  | none, none => figures
  | some cf, some cr =>
    figures.filter (fun f => decide (f.coord.file = cf ∧ f.coord.rank = cr))
  | some cf, none => figures.filter (fun f => decide (f.coord.file = cf))
  | none, some cr => figures.filter (fun f => decide (f.coord.rank = cr))

/-- Stage 3 list: the reachability filter of `filter_on_moves`. -/
def stage3list (figures : List Figure) (draw : Draw) (g : Game) : List Figure :=
  if draw.is_hit then
    figures.filter (fun f => (get_hits f g).contains draw.target)
  else
    figures.filter (fun f => (get_moves f g).contains draw.target)

/-- The survivor loop of `filter_on_pins`: for each candidate simulate the
move on a scratch copy and keep it when no enemy rook/bishop/queen then
reaches the king's square. -/
def pinLoop (base : Game) (draw : Draw) (c : Color) (kc : Coord) :
    List Figure → Option (List Figure)
  | [] => pure []
  | fig :: rest => do
    let alt ← move_figure base fig draw.target
    let n := (alt.figures.filter (fun f =>
      decide (f.color ≠ c) && [Piece.R, Piece.B, Piece.Q].contains f.piece &&
        (get_moves f alt).contains kc)).length
    let tl ← pinLoop base draw c kc rest
    pure (if n = 0 then fig :: tl else tl)

/-- The scratch state `filter_on_pins` simulates on: for a capture, the
occupant of the target square is removed first (`unwrap` panics when the
square is empty or out of range). -/
def pinBase (draw : Draw) (g : Game) : Option Game :=
  if draw.is_hit then do
    let slot ← posGet? g.position draw.target.idx
    let tf ← slot
    remove_figure g tf
  else pure g

/-- The pin-stage survivors as a list, successful when every simulation step
succeeded. -/
def pinSurvivors (figures : List Figure) (draw : Draw) (g : Game) :
    Option (List Figure) := do
  let kingF ← find_king g g.color
  let base ← pinBase draw g
  pinLoop base draw g.color kingF.coord figures

/-- `filter_on_pins` — runs the survivor loop and returns the FIRST surviving
candidate (`figs.into_iter().next().unwrap()`), no matter how many survived;
an empty survivor list panics (→ `none`). -/
def filter_on_pins (figures : List Figure) (draw : Draw) (g : Game) :
    Option Figure := do
  let s ← pinSurvivors figures draw g
  s.head?

/-- `filter_on_moves` — early exit on a single reachable candidate, else fall
through to the pin filter. -/
def filter_on_moves (figures : List Figure) (draw : Draw) (g : Game) :
    Option Figure :=
  let figs := stage3list figures draw g
  if figs.length = 1 then figs.head? else filter_on_pins figs draw g

/-- `filter_on_remainder` — early exit on a single disambiguated candidate,
else fall through to the reachability filter. -/
def filter_on_remainder (figures : List Figure) (draw : Draw) (g : Game) :
    Option Figure :=
  let figs := stage2list figures draw
  if figs.length = 1 then figs.head? else filter_on_moves figs draw g

/-- `filter_mover` — early exit when the side to move owns a single figure of
the requested kind, else run the cascade. -/
def filter_mover (draw : Draw) (g : Game) : Option Figure :=
  let figs := stage1list draw g
  if figs.length = 1 then figs.head? else filter_on_remainder figs draw g

/-- The en-passant-capture test of `play_move`:
`en_passant.is_some() && piece == P && target == en_passant.unwrap()`. -/
def epHitCond (g : Game) (draw : Draw) (m : Figure) : Bool :=
  g.en_passant.isSome && decide (m.piece = Piece.P) &&
    (match g.en_passant with
      | some e => decide (draw.target = e)
      | none => false)

/-- The capture-removal block of `play_move`: on an en-passant capture,
remove the enemy figure standing one rank behind the target; on a plain
capture, remove the figure standing on the target square (`unwrap` panics
when none is found); on a quiet move, pass through. -/
def hitPhase (g : Game) (draw : Draw) (m : Figure)
    (pos1 : List (Option Figure)) (figs1 : List Figure) :
    Option (List (Option Figure) × List Figure) :=
  if draw.is_hit then
    if epHitCond g draw m then do
      let epFig ← figs1.find? (fun f =>
        decide (f.color = g.color.next ∧ f.coord.x = draw.target.x ∧
          f.coord.y = draw.target.y + g.color.next.factor))
      let pos2 ← posSet? pos1 epFig.coord.idx none
      pure (pos2, figs1.erase epFig)
    else do
      let hitFig ← figs1.find? (fun f => decide (f.coord = draw.target))
      let pos2 ← posSet? pos1 hitFig.coord.idx none
      pure (pos2, figs1.erase hitFig)
  else
    pure (pos1, figs1)

/-- The placement block of `play_move`: on a promotion, place a new figure of
the promoted kind at the target (`unwrap` panics when no promoted kind was
parsed); otherwise relocate the mover. -/
def placePhase (g : Game) (draw : Draw) (m : Figure)
    (pos2 : List (Option Figure)) (figs2 : List Figure) :
    Option (List (Option Figure) × List Figure) :=
  if draw.is_promo then do
    let pp ← draw.promoted_piece
    let promoted : Figure := ⟨g.color, draw.target, pp⟩
    let pos3 ← posSet? pos2 promoted.coord.idx (some promoted)
    pure (pos3, List.insert promoted figs2)
  else do
    let moved := m.move_to draw.target
    let pos3 ← posSet? pos2 moved.coord.idx (some moved)
    pure (pos3, List.insert moved figs2)

/-- The en-passant recomputation block of `play_move`: clear the target, then
if a pawn just moved two ranks, look up the skipped square on the board
(panic on an out-of-range index) and set it when an enemy pawn stands on an
adjacent file of the destination rank. -/
def epPhase (g : Game) (draw : Draw) (m : Figure) (figs3 : List Figure) :
    Option (Option Coord) :=
  if decide (m.piece = Piece.P) && decide ((m.coord.y - draw.target.y).natAbs = 2) then do
    let epCoord ← boardGet? g.board (draw.target.idx + g.color.factor * 8)
    let cands := figs3.filter (fun f =>
      decide (f.color = g.color.next ∧ f.piece = Piece.P ∧
        f.coord.y = draw.target.y ∧ (f.coord.x - draw.target.x).natAbs = 1))
    pure (if cands.isEmpty then none else some epCoord)
  else
    pure (none : Option Coord)

/-- The uci string `play_move` records: source square, target square, and the
lowercase promoted-piece letter on promotions. -/
def uciOf (draw : Draw) (m : Figure) : List Char :=
  coordRender m.coord ++ coordRender draw.target ++
    (if draw.is_promo then
      (match draw.promoted_piece with
        | some p => [p.to_char .B]
        | none => [])
    else [])

/-- The ordinary-move branch of `Game::play_move` (everything but castling),
transcribed statement by statement.  Note the final castling-rights
recomputation: the Rust statement `self.castling.update(moving_figure);`
discards the value `Castling::update` returns, so the stored `castling`
field is left unchanged. -/
def playNormal (g : Game) (draw : Draw) : Option Game := do
  let m ← filter_mover draw g
  let pos1 ← posSet? g.position m.coord.idx none
  let hit ← hitPhase g draw m pos1 (g.figures.erase m)
  let placed ← placePhase g draw m hit.1 hit.2
  let ep ← epPhase g draw m placed.2
  pure { g with
    position := placed.1
    figures := placed.2
    en_passant := ep
    uci := uciOf draw m
    half_move_clock :=
      if draw.is_hit || decide (draw.piece = Piece.P) then 0 else g.half_move_clock + 1
    full_move_clock :=
      if g.color = .B then g.full_move_clock + 1 else g.full_move_clock
    color := g.color.next }

/-- King source slot in `Game::castle` (4 for Black, 60 for White). -/
def king_src (c : Color) : Int := if c = .B then 4 else 60

/-- King target slot in `Game::castle`. -/
def king_tgt (c : Color) (q : Bool) : Int :=
  if c = .B then (if q then 2 else 6) else (if q then 58 else 62)

/-- Rook source slot in `Game::castle`. -/
def rook_src (c : Color) (q : Bool) : Int :=
  if c = .B then (if q then 0 else 7) else (if q then 56 else 63)

/-- Rook target slot in `Game::castle`. -/
def rook_tgt (c : Color) (q : Bool) : Int :=
  if c = .B then (if q then 3 else 5) else (if q then 59 else 61)

/-- The uci string `Game::castle` records. -/
def castleUci (c : Color) (q : Bool) : List Char :=
  if c = .B then (if q then ['e','8','c','8'] else ['e','8','g','8'])
  else (if q then ['e','1','c','1'] else ['e','1','g','1'])

/-- `Game::castle` — fixed source/target slots per color and side; note the
Rust statement `self.castling.castle(self.color);` discards its result, so
the stored rights are unchanged, while the clocks, color and uci are updated. -/
def castle (g : Game) (queenside : Bool) : Option Game := do
  let kslot ← posGet? g.position (king_src g.color)
  let king ← kslot
  let rslot ← posGet? g.position (rook_src g.color queenside)
  let rook ← rslot
  let ktc ← boardGet? g.board (king_tgt g.color queenside)
  let rtc ← boardGet? g.board (rook_tgt g.color queenside)
  let new_king := king.move_to ktc
  let new_rook := rook.move_to rtc
  let figs := List.insert new_rook (List.insert new_king
    ((g.figures.erase king).erase rook))
  let pos1 ← posSet? g.position (king_src g.color) none
  let pos2 ← posSet? pos1 (rook_src g.color queenside) none
  let pos3 ← posSet? pos2 (king_tgt g.color queenside) (some new_king)
  let pos4 ← posSet? pos3 (rook_tgt g.color queenside) (some new_rook)
  pure { g with
    position := pos4
    figures := figs
    uci := castleUci g.color queenside
    half_move_clock := g.half_move_clock + 1
    full_move_clock :=
      if g.color = .B then g.full_move_clock + 1 else g.full_move_clock
    color := g.color.next }

/-- `Game::play_move` — castling tokens to the castling branch, everything
else to the ordinary branch. -/
def play_move (g : Game) : Token → Option Game
  | .castleTok q => castle g q
  | .normal d => playNormal g d

/-- `Game::play_move` folded over a token list (as the repo's game tests do). -/
def applySeq (g : Game) : List Token → Option Game
  | [] => some g
  | t :: ts => (play_move g t).bind (fun g1 => applySeq g1 ts)

/-- The 32 start figures of `FIGURE_STR_VEC`, in source order. -/
def startFigStrs : List (Char × Char × Char) :=
  [('r','a','8'), ('n','b','8'), ('b','c','8'), ('q','d','8'), ('k','e','8'),
   ('b','f','8'), ('n','g','8'), ('r','h','8'), ('p','a','7'), ('p','b','7'),
   ('p','c','7'), ('p','d','7'), ('p','e','7'), ('p','f','7'), ('p','g','7'),
   ('p','h','7'), ('P','a','2'), ('P','b','2'), ('P','c','2'), ('P','d','2'),
   ('P','e','2'), ('P','f','2'), ('P','g','2'), ('P','h','2'), ('R','a','1'),
   ('N','b','1'), ('B','c','1'), ('Q','d','1'), ('K','e','1'), ('B','f','1'),
   ('N','g','1'), ('R','h','1')]

/-- The start position array: each figure written into the slot of its own
coordinate index, as `Game::new` does. -/
def startPosition : List (Option Figure) :=
  startFigStrs.foldl
    (fun pos s =>
      let fig := figureOfChars s.1 s.2.1 s.2.2
      pos.set fig.coord.idx.toNat (some fig))
    (List.replicate 64 none)

/-- `Game::new` — the standard starting state; the figure set is collected
from the array in index order. -/
def gameNew : Game :=
  { board := mkBoard
    position := startPosition
    figures := startPosition.filterMap id
    color := .W
    castling := Castling.new
    en_passant := none
    half_move_clock := 0
    full_move_clock := 1
    uci := ['0','0','0','0'] }

/-- `unload_space` — the digit emitted for a pending run of empty squares
(nothing when the run is empty). -/
def unloadChars (s : Nat) : List Char :=
  if s > 0 then [Char.ofNat (48 + s)] else []

/-- The loop body of `position_to_fen`: element index `f`, pending empty-run
counter `s`; a rank separator (preceded by the unloaded run) before every
index that is a positive multiple of 8. -/
def ptfAux : List (Option Figure) → Nat → Nat → List Char
  | [], _, s => unloadChars s
  | o :: rest, f, s =>
    let sep : Bool := decide (f ≠ 0 ∧ f % 8 = 0)
    let pre := if sep then unloadChars s ++ ['/'] else []
    let s1 := if sep then 0 else s
    match o with
    | some fig => pre ++ unloadChars s1 ++ [fig.to_char] ++ ptfAux rest (f + 1) 0
    | none => pre ++ ptfAux rest (f + 1) (s1 + 1)

/-- `position_to_fen` from src/utils/game.rs. -/
def position_to_fen (pos : List (Option Figure)) : List Char :=
  ptfAux pos 0 0

/-- Rust `vec[i] = v` on the parse-side figure array (panic on an
out-of-range index → `none`). -/
def listSet? (l : List (Option Figure)) (i : Nat) (v : Option Figure) :
    Option (List (Option Figure)) :=
  if i < l.length then some (l.set i v) else none

/-- The loop of `fen_to_position`: digits advance the running index, the rank
separator is skipped, any other char becomes a figure at the running index
with the board coordinate of that index (color from the letter case, piece
via `Piece::from`). -/
def ftpGo (board : List Coord) :
    List Char → Nat → List (Option Figure) → Option (Nat × List (Option Figure))
  | [], i, arr => some (i, arr)
  | ch :: rest, i, arr =>
    if ch.isDigit then ftpGo board rest (i + (ch.toNat - 48)) arr
    else if ch = '/' then ftpGo board rest i arr
    else do
      let co ← boardGet? board (i : Int)
      let arr1 ← listSet? arr i
        (some ⟨if ch.isLower then .B else .W, co, Piece.from_char ch⟩)
      ftpGo board rest (i + 1) arr1

/-- `fen_to_position` from src/utils/game.rs. -/
def fen_to_position (fen : List Char) (board : List Coord) :
    Option (List (Option Figure)) :=
  (ftpGo board fen 0 (List.replicate 64 none)).map (·.2)

/-- `str::split(' ')`: split into (possibly empty) space-free chunks. -/
def splitSpace : List Char → List Char → List (List Char)
  | [], cur => [cur.reverse]
  | c :: rest, cur =>
    if c = ' ' then cur.reverse :: splitSpace rest [] else splitSpace rest (c :: cur)

/-- `join(" ")` over the six FEN fields. -/
def joinSpace : List (List Char) → List Char
  | [] => []
  | [x] => x
  | x :: xs => x ++ ' ' :: joinSpace xs

/-- `u16::to_string` — decimal digits, most significant first. -/
def natRender (n : Nat) : List Char :=
  if h : n < 10 then [Char.ofNat (48 + n)]
  else natRender (n / 10) ++ [Char.ofNat (48 + n % 10)]
decreasing_by exact Nat.div_lt_self (by omega) (by omega)

/-- `str::parse::<u16>()` — an optional sign, then at least one digit, value
within `u16` range. -/
def parseU16 (s : List Char) : Option Nat :=
  let t := match s with
    | '+' :: rest => rest
    | _ => s
  if t = [] then none
  else if t.all (·.isDigit) then
    let v := t.foldl (fun a c => a * 10 + (c.toNat - 48)) 0
    if v < 65536 then some v else none
  else none

/-- `Game::to_fen_list` — the six rendered FEN fields. -/
def to_fen_list (g : Game) : List (List Char) :=
  [position_to_fen g.position,
   g.color.render,
   g.castling.render,
   (match g.en_passant with
     | none => ['-']
     | some c => coordRender c),
   natRender g.half_move_clock,
   natRender g.full_move_clock]

/-- `Game::to_fen` — the six fields joined by spaces. -/
def to_fen (g : Game) : List Char := joinSpace (to_fen_list g)

/-- `Game::from_str` — split on spaces, parse the six fields (every panic or
assertion failure → `none`); the figure set is collected from the parsed
array in index order and the uci field is the null move. -/
def from_str (fen : List Char) : Option Game := do
  let parts := splitSpace fen []
  let p0 ← parts.get? 0
  let p1 ← parts.get? 1
  let p2 ← parts.get? 2
  let p3 ← parts.get? 3
  let p4 ← parts.get? 4
  let p5 ← parts.get? 5
  let pos ← fen_to_position p0 mkBoard
  let c0 ← p1.get? 0
  let color ← Color.from_char c0
  let ep ←
    if p3 = ['-'] then pure (none : Option Coord)
    else do
      let c ← coordFromStr p3
      pure (some c)
  let hmc ← parseU16 p4
  let fmc ← parseU16 p5
  pure { board := mkBoard
         position := pos
         figures := pos.filterMap id
         color := color
         castling := Castling.from_chars p2
         en_passant := ep
         half_move_clock := hmc
         full_move_clock := fmc
         uci := ['0','0','0','0'] }

/-- Convenience: parse a FEN given as a `String`. -/
def fromFenString (s : String) : Option Game := from_str s.data

/-! ### Well-formedness and the array/set synchronisation invariant -/

/-- A slot either is empty or holds a figure whose cached coordinate is the
board coordinate of that slot. -/
def slotCoordB (o : Option Figure) (i : Nat) : Bool :=
  o.all (fun f => decide (f.coord = coordOfIdx i))

/-- Every occupied slot of the array records its own index as the figure's
coordinate. -/
def posCoordsOK (pos : List (Option Figure)) : Prop :=
  ∀ i, i < 64 → slotCoordB (pos.getD i none) i = true

/-- Structural well-formedness of a `Game`, as established by `Game::new` and
`Game::from_str`: the board table, a 64-slot array whose occupants record
their own squares, and an on-board en-passant target. -/
def WF (g : Game) : Prop :=
  g.board = mkBoard ∧ g.position.length = 64 ∧ posCoordsOK g.position ∧
  g.en_passant.all (fun c => mkBoard.contains c) = true

/-- The clocks fit in `u16` (needed only for the round trip through
`str::parse::<u16>`). -/
def ClocksOK (g : Game) : Prop :=
  g.half_move_clock < 65536 ∧ g.full_move_clock < 65536

/-- The slot at array index `i` is either empty or a member of the figure
set. -/
def slotMemB (g : Game) (i : Nat) : Bool :=
  (g.position.getD i none).all (fun f => g.figures.contains f)

/-- The synchronisation invariant in checkable form: the figure set has no
duplicates, every set member occupies its own array slot, and every occupied
array slot's figure is a set member. -/
def Sync (g : Game) : Prop :=
  g.figures.Nodup ∧
  (∀ f ∈ g.figures, posGet? g.position f.coord.idx = some (some f)) ∧
  (∀ i, i < 64 → slotMemB g i = true)

/-- The invariant exactly as the specification words it: a figure is a member
of the set iff the array slot at its square's index holds exactly that
figure. -/
def SyncIff (g : Game) : Prop :=
  ∀ f : Figure, f ∈ g.figures ↔ posGet? g.position f.coord.idx = some (some f)

/-- The invariant the two mutable views must keep, phrased on the raw pair of
an occupancy array and a figure list (an iteration order of the set): 64
slots, occupants recording their own squares, a duplicate-free set whose
members sit in their own slots, and occupied slots holding set members. -/
def PairInv (pos : List (Option Figure)) (figs : List Figure) : Prop :=
  pos.length = 64 ∧ posCoordsOK pos ∧ figs.Nodup ∧
  (∀ f ∈ figs, posGet? pos f.coord.idx = some (some f)) ∧
  (∀ i, i < 64 → ((pos.getD i none).all figs.contains) = true)

instance (pos : List (Option Figure)) : Decidable (posCoordsOK pos) := by
  unfold posCoordsOK; infer_instance

instance (g : Game) : Decidable (WF g) := by
  unfold WF; infer_instance

instance (g : Game) : Decidable (ClocksOK g) := by
  unfold ClocksOK; infer_instance

instance (g : Game) : Decidable (Sync g) := by
  unfold Sync; infer_instance

instance (pos : List (Option Figure)) (figs : List Figure) :
    Decidable (PairInv pos figs) := by
  unfold PairInv; infer_instance

/-- The inductive invariant of a live engine state: intact board table, a
64-slot array whose occupants record their own squares, and the two views in
sync. -/
def GoodState (g : Game) : Prop :=
  g.board = mkBoard ∧ g.position.length = 64 ∧ posCoordsOK g.position ∧ Sync g

instance (g : Game) : Decidable (GoodState g) := by
  unfold GoodState; infer_instance

/-! ### Concrete inputs used by the individual claims -/

/-- A move descriptor with no check/promotion flags, as the SAN regex
produces for plain tokens. -/
def drawPlain (p : Piece) (fc rc : Char) (hit : Bool)
    (rf rr : Option Char) : Draw :=
  ⟨coordAb fc rc, p, false, false, false, hit, none, rf, rr⟩

/-- "Ra2" with two white rooks on the a-file (a1 and a3): both pass every
stage of the cascade. -/
def c1draw : Draw := drawPlain .R 'a' '2' false none none

/-- Position with white rooks a1/a3, white king h1, black king h8. -/
def c1game : Game :=
  (fromFenString "7k/8/8/8/8/R7/8/R6K w - - 0 1").getD gameNew

/-- All four castling rights present, both sides ready to castle. -/
def c2game : Game :=
  (fromFenString "r3k2r/8/8/8/8/8/8/R3K2R w KQkq - 0 1").getD gameNew

/-- The state after "O-O" for White from `c2game`. -/
def c2after : Game := (play_move c2game (Token.castleTok false)).getD gameNew

/-- Lone white rook a1 with its own king on a2: the quiet token "Ra2" resolves
by the stage-1 early exit and lands on the occupied square. -/
def c3game : Game :=
  (fromFenString "8/8/8/8/8/8/K7/R7 w - - 0 1").getD gameNew

/-- The state after "Ra2" from `c3game`. -/
def c3after : Game := (play_move c3game (Token.normal c1draw)).getD gameNew

/-- White to move, pawn e2 against black pawn d4: "e4" must set the
en-passant target e3. -/
def c5game : Game :=
  (fromFenString "4k3/8/8/8/3p4/8/4P3/4K3 w - - 0 1").getD gameNew

/-- The state after "e4" from `c5game`. -/
def c5mid : Game :=
  (play_move c5game (Token.normal (drawPlain .P 'e' '4' false none none))).getD gameNew

/-- The en-passant capture token "dxe3". -/
def c5draw2 : Draw := drawPlain .P 'e' '3' true (some 'd') none

/-- The state after "dxe3" from `c5mid`. -/
def c5after : Game := (play_move c5mid (Token.normal c5draw2)).getD gameNew

/-- Lone kings, white king on h2 with the a1 corner empty. -/
def c6game : Game :=
  (fromFenString "k7/8/8/8/8/8/7K/8 w - - 0 1").getD gameNew

/-- The white king on h2 as a figure. -/
def c6king : Figure := figureOfChars 'K' 'h' '2'

/-- White pawn a4 against a black pawn h6 (plus kings). -/
def c7game : Game :=
  (fromFenString "k7/8/7p/8/P7/8/8/K7 w - - 0 1").getD gameNew

/-- The white pawn on a4 as a figure. -/
def c7pawn : Figure := figureOfChars 'P' 'a' '4'

/-- A mid-board pawn capture scene for the amended pawn-capture claim: white
pawn e4, black pawn d5. -/
def c7game2 : Game :=
  (fromFenString "4k3/8/8/3p4/4P3/8/8/4K3 w - - 0 1").getD gameNew

/-- The white pawn on e4 as a figure. -/
def c7pawn2 : Figure := figureOfChars 'P' 'e' '4'

/-- The fixed move sequence 1.e4 e5 2.Ne2 Nf6 of the determinism
counterexample. -/
def c8toks : List Token :=
  [Token.normal (drawPlain .P 'e' '4' false none none),
   Token.normal (drawPlain .P 'e' '5' false none none),
   Token.normal (drawPlain .N 'e' '2' false none none),
   Token.normal (drawPlain .N 'f' '6' false none none)]

/-- The ambiguous follow-up token "Nc3" (both Nb1 and Ne2 reach c3). -/
def c8draw : Draw := drawPlain .N 'c' '3' false none none

/-- First run: the engine state after the four plies, with the figure-set
iteration order the deterministic embedding produces. -/
def c8gameA : Game := (applySeq gameNew c8toks).getD gameNew

/-- Second run: the same state with a legitimate alternative iteration order
of the same figure set (the two white knights swapped). -/
def c8gameB : Game :=
  { c8gameA with
    figures := c8gameA.figures.map (fun f =>
      if f = figureOfChars 'N' 'e' '2' then figureOfChars 'N' 'b' '1'
      else if f = figureOfChars 'N' 'b' '1' then figureOfChars 'N' 'e' '2'
      else f) }

/-- Both sides may castle; a previous white double-step left the en-passant
target e3 set, black to move. -/
def c10game : Game :=
  (fromFenString "r3k2r/8/8/8/4P3/8/8/R3K2R b KQkq e3 0 1").getD gameNew

/-- The state after "O-O" for Black from `c10game`. -/
def c10after : Game := (play_move c10game (Token.castleTok false)).getD gameNew

/-- Two engine states that agree in every field except for the iteration
order of the figure set — the situation of two runs of the engine over the
same move sequence with differently seeded `HashSet`s. -/
def FigsPerm (g1 g2 : Game) : Prop :=
  g2.board = g1.board ∧ g2.position = g1.position ∧ g2.color = g1.color ∧
  g2.castling = g1.castling ∧ g2.en_passant = g1.en_passant ∧
  g2.half_move_clock = g1.half_move_clock ∧
  g2.full_move_clock = g1.full_move_clock ∧ g2.uci = g1.uci ∧
  g2.figures.Perm g1.figures

instance (g1 g2 : Game) : Decidable (FigsPerm g1 g2) := by
  unfold FigsPerm; infer_instance

/-- The side to move owns at most one king, so `find_king` picks the same
figure whatever the set's iteration order. -/
def KingUnique (g : Game) : Prop :=
  (g.figures.filter
    (fun f => decide (f.piece = Piece.K ∧ f.color = g.color))).length ≤ 1

instance (g : Game) : Decidable (KingUnique g) := by
  unfold KingUnique; infer_instance

/-- The survival test `filter_on_pins` applies to one candidate: simulate
the move on the scratch state and require that no enemy rook, bishop or
queen then reaches the king's square. -/
def survB (base : Game) (draw : Draw) (c : Color) (kc : Coord)
    (fig : Figure) : Bool :=
  match move_figure base fig draw.target with
  | none => false
  | some alt =>
    decide ((alt.figures.filter (fun f =>
      decide (f.color ≠ c) && [Piece.R, Piece.B, Piece.Q].contains f.piece &&
        (get_moves f alt).contains kc)).length = 0)

/-- `c5game` with the figure set in reversed iteration order, for the
determinism witness. -/
def c8uniq : Game := { c5game with figures := c5game.figures.reverse }

/-! ## Theorems -/

/-- The checkable synchronisation invariant implies the invariant as the
specification words it. -/
theorem syncIff_of_sync (g : Game) (hl : g.position.length = 64) (h : Sync g) :
    SyncIff g := by
  obtain ⟨-, hmem, hslot⟩ := h
  intro f
  constructor
  · exact hmem f
  · intro hf
    unfold posGet? at hf
    split at hf
    · exact absurd hf (by simp)
    · have hlt : f.coord.idx.toNat < 64 := by
        obtain ⟨hh, -⟩ := List.get?_eq_some.mp hf
        omega
      have hs := hslot f.coord.idx.toNat hlt
      unfold slotMemB at hs
      rw [List.get?_eq_getElem?] at hf
      rw [List.getD_eq_getElem?_getD, hf] at hs
      simp only [Option.getD_some, Option.all_some] at hs
      exact List.mem_of_elem_eq_true hs

/-! ### Shared auxiliary lemmas -/

theorem coordOfIdx_idx (i : Nat) (h : i < 64) : (coordOfIdx i).idx = (i : Int) := by
  simp only [coordOfIdx]
  omega

theorem coordOfIdx_x (i : Nat) : (coordOfIdx i).x = ((i % 8 : Nat) : Int) := rfl

theorem coordOfIdx_y (i : Nat) : (coordOfIdx i).y = ((7 - i / 8 : Nat) : Int) := rfl

theorem mem_mkBoard_iff {c : Coord} : c ∈ mkBoard ↔ ∃ i, i < 64 ∧ c = coordOfIdx i := by
  simp only [mkBoard, List.mem_map, List.mem_range]
  constructor
  · rintro ⟨i, hi, rfl⟩
    exact ⟨i, hi, rfl⟩
  · rintro ⟨i, hi, rfl⟩
    exact ⟨i, hi, rfl⟩

theorem board_coord_eq {c : Coord} (h : c ∈ mkBoard) :
    0 ≤ c.idx ∧ c.idx < 64 ∧ c = coordOfIdx c.idx.toNat := by
  obtain ⟨i, hi, rfl⟩ := mem_mkBoard_iff.mp h
  rw [coordOfIdx_idx i hi]
  refine ⟨by omega, by omega, ?_⟩
  simp

/-- Two board coordinates with the same `x` and `y` are the same square. -/
theorem board_coord_ext {c1 c2 : Coord} (h1 : c1 ∈ mkBoard) (h2 : c2 ∈ mkBoard)
    (hx : c1.x = c2.x) (hy : c1.y = c2.y) : c1 = c2 := by
  obtain ⟨i, hi, rfl⟩ := mem_mkBoard_iff.mp h1
  obtain ⟨j, hj, rfl⟩ := mem_mkBoard_iff.mp h2
  rw [coordOfIdx_x, coordOfIdx_x] at hx
  rw [coordOfIdx_y, coordOfIdx_y] at hy
  have : i = j := by omega
  rw [this]

theorem posGet?_some {pos : List (Option Figure)} {i : Int} {o : Option Figure}
    (h : posGet? pos i = some o) :
    0 ≤ i ∧ i.toNat < pos.length ∧ pos.getD i.toNat none = o := by
  unfold posGet? at h
  split at h
  · exact absurd h (by simp)
  · have hlt := List.get?_eq_some.mp h
    obtain ⟨hl, -⟩ := hlt
    refine ⟨by omega, hl, ?_⟩
    rw [List.getD_eq_getElem?_getD, ← List.get?_eq_getElem?, h]
    rfl

theorem posGet?_of {pos : List (Option Figure)} {i : Int} (h0 : 0 ≤ i)
    (hl : i.toNat < pos.length) : posGet? pos i = some (pos.getD i.toNat none) := by
  unfold posGet?
  rw [if_neg (by omega)]
  rw [List.getD_eq_getElem?_getD, ← List.get?_eq_getElem?]
  cases hg : pos.get? i.toNat with
  | none => exact absurd (List.get?_eq_none.mp hg) (by omega)
  | some o => rfl

theorem posSet?_of {pos : List (Option Figure)} {i : Int} (v : Option Figure)
    (h0 : 0 ≤ i) (hl : i.toNat < pos.length) :
    posSet? pos i v = some (pos.set i.toNat v) := by
  unfold posSet?
  rw [if_pos ⟨h0, hl⟩]

theorem boardGet?_of {l : List Coord} {i : Int} {c : Coord}
    (h : boardGet? l i = some c) : 0 ≤ i ∧ i.toNat < l.length ∧ c ∈ l := by
  unfold boardGet? at h
  split at h
  · exact absurd h (by simp)
  · obtain ⟨hl, -⟩ := List.get?_eq_some.mp h
    exact ⟨by omega, hl, List.get?_mem h⟩

theorem posSet?_some {pos : List (Option Figure)} {i : Int} {v : Option Figure}
    {pos' : List (Option Figure)} (h : posSet? pos i v = some pos') :
    0 ≤ i ∧ i.toNat < pos.length ∧ pos' = pos.set i.toNat v := by
  unfold posSet? at h
  split at h
  · rename_i hc
    cases h
    exact ⟨hc.1, hc.2, rfl⟩
  · exact absurd h (by simp)

theorem posGet?_set_self {pos : List (Option Figure)} {i : Int} (v : Option Figure)
    (h0 : 0 ≤ i) (hl : i.toNat < pos.length) :
    posGet? (pos.set i.toNat v) i = some v := by
  unfold posGet?
  rw [if_neg (by omega)]
  exact List.get?_set_eq_of_lt v hl

theorem posGet?_set_ne {pos : List (Option Figure)} {i : Int} (v : Option Figure)
    {j : Int} (h : i.toNat ≠ j.toNat) :
    posGet? (pos.set i.toNat v) j = posGet? pos j := by
  unfold posGet?
  split
  · rfl
  · exact List.get?_set_ne v _ h

theorem boardGet?_mkBoard {i : Int} {c : Coord} (h : boardGet? mkBoard i = some c) :
    0 ≤ i ∧ i.toNat < 64 ∧ c = coordOfIdx i.toNat := by
  unfold boardGet? at h
  split at h
  · exact absurd h (by simp)
  · obtain ⟨hl, -⟩ := List.get?_eq_some.mp h
    simp only [mkBoard, List.length_map, List.length_range] at hl
    refine ⟨by omega, hl, ?_⟩
    rw [List.get?_eq_getElem?] at h
    simp only [mkBoard, List.getElem?_map, List.getElem?_range hl] at h
    exact (Option.some.injEq _ _ ▸ h).symm

theorem color_next_ne (c : Color) : c.next ≠ c := by
  cases c <;> decide

/-- A set member's cached coordinate is the board coordinate of its slot. -/
theorem fig_coord_board {g : Game} (hlen : g.position.length = 64)
    (hpc : posCoordsOK g.position) (hsync : Sync g) {f : Figure}
    (hf : f ∈ g.figures) :
    0 ≤ f.coord.idx ∧ f.coord.idx < 64 ∧ f.coord = coordOfIdx f.coord.idx.toNat := by
  have hslot := hsync.2.1 f hf
  obtain ⟨h0, hlt, hgd⟩ := posGet?_some hslot
  have h64 : f.coord.idx.toNat < 64 := by omega
  have := hpc f.coord.idx.toNat h64
  rw [hgd] at this
  simp only [slotCoordB, Option.all_some, decide_eq_true_eq] at this
  exact ⟨h0, by omega, this⟩

/-- Two set members on the same square are the same figure. -/
theorem figures_coord_inj {g : Game} (hlen : g.position.length = 64)
    (hpc : posCoordsOK g.position) (hsync : Sync g) {f1 f2 : Figure}
    (h1 : f1 ∈ g.figures) (h2 : f2 ∈ g.figures)
    (hx : f1.coord.x = f2.coord.x) (hy : f1.coord.y = f2.coord.y) : f1 = f2 := by
  obtain ⟨-, hb1, he1⟩ := fig_coord_board hlen hpc hsync h1
  obtain ⟨-, hb2, he2⟩ := fig_coord_board hlen hpc hsync h2
  have hc : f1.coord = f2.coord := by
    refine board_coord_ext ?_ ?_ hx hy
    · exact mem_mkBoard_iff.mpr ⟨f1.coord.idx.toNat, by omega, he1⟩
    · exact mem_mkBoard_iff.mpr ⟨f2.coord.idx.toNat, by omega, he2⟩
  have hs1 := hsync.2.1 f1 h1
  have hs2 := hsync.2.1 f2 h2
  rw [hc] at hs1
  rw [hs1] at hs2
  simpa using hs2

/-- `find?` returns the unique satisfier when there is exactly one. -/
theorem find?_eq_some_of_unique {α : Type} {p : α → Bool} {l : List α} {a : α}
    (ha : a ∈ l) (hpa : p a = true) (hu : ∀ b ∈ l, p b = true → b = a) :
    l.find? p = some a := by
  induction l with
  | nil => cases ha
  | cons x xs ih =>
    rcases List.mem_cons.mp ha with rfl | hmem
    · rw [List.find?_cons_of_pos _ hpa]
    · by_cases hx : p x = true
      · rw [List.find?_cons_of_pos _ hx, hu x (List.mem_cons_self x xs) hx]
      · rw [List.find?_cons_of_neg _ (by simpa using hx)]
        exact ih hmem (fun b hb => hu b (List.mem_cons_of_mem _ hb))

theorem head?_mem {α : Type} {l : List α} {a : α} (h : l.head? = some a) : a ∈ l := by
  cases l with
  | nil => cases h
  | cons x xs =>
    simp only [List.head?, Option.some.injEq] at h
    subst h
    exact List.mem_cons_self _ _

theorem stage2list_subset (figures : List Figure) (d : Draw) :
    stage2list figures d ⊆ figures := by
  unfold stage2list
  split
  · exact fun _ h => h
  · exact (List.filter_sublist _).subset
  · exact (List.filter_sublist _).subset
  · exact (List.filter_sublist _).subset

theorem stage3list_subset (figures : List Figure) (d : Draw) (g : Game) :
    stage3list figures d g ⊆ figures := by
  unfold stage3list
  split
  · exact (List.filter_sublist _).subset
  · exact (List.filter_sublist _).subset

theorem pinLoop_subset {base : Game} {draw : Draw} {c : Color} {kc : Coord} :
    ∀ {l l' : List Figure}, pinLoop base draw c kc l = some l' → l' ⊆ l := by
  intro l
  induction l with
  | nil =>
    intro l' h
    simp only [pinLoop, pure, Option.some.injEq] at h
    subst h
    exact fun _ h => h
  | cons x xs ih =>
    intro l' h
    simp only [pinLoop, bind, Option.bind_eq_some, pure, Option.some.injEq] at h
    obtain ⟨alt, -, tl, htl, hl'⟩ := h
    subst hl'
    have hsub := ih htl
    split
    · intro a ha
      rcases List.mem_cons.mp ha with rfl | hm
      · exact List.mem_cons_self _ _
      · exact List.mem_cons_of_mem _ (hsub hm)
    · exact fun a ha => List.mem_cons_of_mem _ (hsub ha)

theorem filter_on_pins_sub {figures : List Figure} {d : Draw} {g : Game} {m : Figure}
    (h : filter_on_pins figures d g = some m) : m ∈ figures := by
  unfold filter_on_pins pinSurvivors at h
  simp only [bind, Option.bind_eq_some] at h
  obtain ⟨l, ⟨kf, -, base, -, hl⟩, hm⟩ := h
  exact pinLoop_subset hl (head?_mem hm)

/-- Whatever the cascade returns was a stage-1 candidate. -/
theorem filter_mover_mem_stage1 {d : Draw} {g : Game} {m : Figure}
    (h : filter_mover d g = some m) : m ∈ stage1list d g := by
  simp only [filter_mover] at h
  split at h
  · exact head?_mem h
  · simp only [filter_on_remainder] at h
    split at h
    · exact stage2list_subset _ _ (head?_mem h)
    · simp only [filter_on_moves] at h
      split at h
      · exact stage2list_subset _ _ (stage3list_subset _ _ _ (head?_mem h))
      · exact stage2list_subset _ _ (stage3list_subset _ _ _ (filter_on_pins_sub h))

/-- The resolved mover belongs to the live figure set, is owned by the side
to move, and has the descriptor's piece kind. -/
theorem filter_mover_mem {d : Draw} {g : Game} {m : Figure}
    (h : filter_mover d g = some m) :
    m ∈ g.figures ∧ m.color = g.color ∧ m.piece = d.piece := by
  have h1 := filter_mover_mem_stage1 h
  unfold stage1list at h1
  have hp := List.of_mem_filter h1
  simp only [decide_eq_true_eq] at hp
  exact ⟨List.mem_of_mem_filter h1, hp.1, hp.2⟩

theorem move_to_coord (f : Figure) (c : Coord) : (f.move_to c).coord = c := rfl

theorem getD_set_self {l : List (Option Figure)} {n : Nat} (v : Option Figure)
    (h : n < l.length) : (l.set n v).getD n none = v := by
  rw [List.getD_eq_getElem?_getD, ← List.get?_eq_getElem?,
    List.get?_set_eq_of_lt v h]
  rfl

theorem getD_set_ne {l : List (Option Figure)} {n m : Nat} (v : Option Figure)
    (h : n ≠ m) : (l.set n v).getD m none = l.getD m none := by
  rw [List.getD_eq_getElem?_getD, ← List.get?_eq_getElem?, List.get?_set_ne v _ h,
    List.get?_eq_getElem?, ← List.getD_eq_getElem?_getD]

theorem pairInv_of {g : Game} (hlen : g.position.length = 64)
    (hpc : posCoordsOK g.position) (hsync : Sync g) :
    PairInv g.position g.figures := by
  refine ⟨hlen, hpc, hsync.1, hsync.2.1, ?_⟩
  intro i hi
  exact hsync.2.2 i hi

/-- Removing a set member from both views keeps the pair invariant. -/
theorem pairInv_remove {pos : List (Option Figure)} {figs : List Figure}
    {f : Figure} (h : PairInv pos figs) (hf : f ∈ figs) :
    posSet? pos f.coord.idx none = some (pos.set f.coord.idx.toNat none) ∧
    PairInv (pos.set f.coord.idx.toNat none) (figs.erase f) := by
  obtain ⟨hlen, hpc, hnd, hmem, hslot⟩ := h
  obtain ⟨h0, hlt, hgd⟩ := posGet?_some (hmem f hf)
  refine ⟨posSet?_of none h0 hlt, by simp [hlen], ?_, hnd.erase f, ?_, ?_⟩
  · intro i hi
    by_cases hie : i = f.coord.idx.toNat
    · subst hie
      rw [getD_set_self none (by omega)]
      rfl
    · rw [getD_set_ne none (fun he => hie he.symm)]
      exact hpc i hi
  · intro f2 hf2
    obtain ⟨hne, hf2m⟩ := hnd.mem_erase_iff.mp hf2
    obtain ⟨h20, h2lt, hgd2⟩ := posGet?_some (hmem f2 hf2m)
    have hine : f.coord.idx.toNat ≠ f2.coord.idx.toNat := by
      intro he
      apply hne
      have : posGet? pos f2.coord.idx = posGet? pos f.coord.idx := by
        unfold posGet?
        rw [if_neg (by omega), if_neg (by omega), ← he]
      rw [hmem f2 hf2m, hmem f hf] at this
      simpa using this
    rw [posGet?_set_ne none hine]
    exact hmem f2 hf2m
  · intro i hi
    by_cases hie : i = f.coord.idx.toNat
    · subst hie
      rw [getD_set_self none (by omega)]
      rfl
    · rw [getD_set_ne none (fun he => hie he.symm)]
      have := hslot i hi
      rcases hgd3 : pos.getD i none with _ | f2
      · simp [hgd3]
      · rw [hgd3] at this
        simp only [Option.all_some] at this ⊢
        have hf2m : f2 ∈ figs := List.mem_of_elem_eq_true this
        have hne : f2 ≠ f := by
          intro he
          subst he
          have hc2 := hpc i hi
          have hcf := hpc f2.coord.idx.toNat (by omega)
          rw [hgd3] at hc2
          rw [hgd] at hcf
          simp only [slotCoordB, Option.all_some, decide_eq_true_eq] at hc2 hcf
          have : (coordOfIdx i).idx = (coordOfIdx f2.coord.idx.toNat).idx := by
            rw [← hc2, ← hcf]
          rw [coordOfIdx_idx i hi, coordOfIdx_idx f2.coord.idx.toNat (by omega)]
            at this
          omega
        have : f2 ∈ figs.erase f := (List.mem_erase_of_ne hne).mpr hf2m
        exact List.elem_eq_true_of_mem this

/-- Placing a figure on an empty slot that matches its coordinate keeps the
pair invariant. -/
theorem pairInv_insert {pos : List (Option Figure)} {figs : List Figure}
    {fig : Figure} {i : Nat} (h : PairInv pos figs) (hi : i < 64)
    (hempty : pos.getD i none = none) (hco : fig.coord = coordOfIdx i) :
    posSet? pos fig.coord.idx (some fig) = some (pos.set i (some fig)) ∧
    PairInv (pos.set i (some fig)) (List.insert fig figs) := by
  obtain ⟨hlen, hpc, hnd, hmem, hslot⟩ := h
  have hidx : fig.coord.idx = (i : Int) := by rw [hco, coordOfIdx_idx i hi]
  have htN : fig.coord.idx.toNat = i := by omega
  have hnotmem : fig ∉ figs := by
    intro hmm
    obtain ⟨-, -, hgd⟩ := posGet?_some (hmem fig hmm)
    rw [htN, hempty] at hgd
    cases hgd
  rw [List.insert_of_not_mem hnotmem]
  constructor
  · rw [← htN]
    exact posSet?_of (some fig) (by omega) (by omega)
  · refine ⟨by simp [hlen], ?_, List.nodup_cons.mpr ⟨hnotmem, hnd⟩, ?_, ?_⟩
    · intro j hj
      by_cases hje : j = i
      · subst hje
        rw [getD_set_self (some fig) (by omega)]
        simp [slotCoordB, hco]
      · rw [getD_set_ne (some fig) (fun he => hje he.symm)]
        exact hpc j hj
    · intro f2 hf2
      rcases List.mem_cons.mp hf2 with rfl | hf2m
      · rw [hidx]
        exact posGet?_set_self (some f2) (by omega) (by omega)
      · obtain ⟨h20, h2lt, hgd2⟩ := posGet?_some (hmem f2 hf2m)
        have hne : i ≠ f2.coord.idx.toNat := by
          intro he
          rw [← he, hempty] at hgd2
          cases hgd2
        have : posGet? (pos.set i (some fig)) f2.coord.idx =
            posGet? pos f2.coord.idx := by
          rw [show i = ((i : Int)).toNat by omega] at hne ⊢
          exact posGet?_set_ne (some fig) (by omega)
        rw [this]
        exact hmem f2 hf2m
    · intro j hj
      by_cases hje : j = i
      · subst hje
        rw [getD_set_self (some fig) (by omega)]
        simp
      · rw [getD_set_ne (some fig) (fun he => hje he.symm)]
        have := hslot j hj
        rcases hgd3 : pos.getD j none with _ | f2
        · simp
        · rw [hgd3] at this
          simp only [Option.all_some] at this ⊢
          exact List.elem_eq_true_of_mem
            (List.mem_cons_of_mem _ (List.mem_of_elem_eq_true this))

/-- C2: applying "O-O" for White from a state where all four castling rights
are true leaves the stored rights COMPLETELY UNCHANGED: the Rust statement
`self.castling.castle(self.color);` (and likewise
`self.castling.update(moving_figure);` in the ordinary branch) discards the
recomputed rights, contradicting the claim and the repository's own tests. -/
theorem C2_castle_discards_rights :
    fromFenString "r3k2r/8/8/8/8/8/8/R3K2R w KQkq - 0 1" = some c2game ∧
    c2game.castling = Castling.new ∧
    play_move c2game (Token.castleTok false) = some c2after ∧
    c2after.castling = Castling.new := by
  decide

theorem pairInv_to_good {g : Game} (hb : g.board = mkBoard)
    (hpi : PairInv g.position g.figures) : GoodState g :=
  ⟨hb, hpi.1, hpi.2.1, hpi.2.2.1, hpi.2.2.2.1, fun i hi => hpi.2.2.2.2 i hi⟩

/-- The ordinary-move branch preserves the inductive invariant, provided the
landing square is empty beforehand for quiet moves and for en-passant
captures (for plain captures the occupant of the landing square is removed
first). -/
theorem good_preserved_normal (g : Game) (d : Draw) (g' : Game)
    (hgs : GoodState g) (htb : d.target ∈ mkBoard)
    (hq : d.is_hit = false → posGet? g.position d.target.idx = some none)
    (he : g.en_passant = some d.target → posGet? g.position d.target.idx = some none)
    (hplay : play_move g (Token.normal d) = some g') :
    GoodState g' := by
  obtain ⟨hb, hlen, hpc, hsync⟩ := hgs
  have hpi0 := pairInv_of hlen hpc hsync
  obtain ⟨ht0, ht64, hteq⟩ := board_coord_eq htb
  have hpn : playNormal g d = some g' := hplay
  simp only [playNormal, bind, Option.bind_eq_some, pure, Option.some.injEq] at hpn
  obtain ⟨m, hm, pos1, hpos1, hit, hhit2, placed, hplaced, epv, hepv, hg'⟩ := hpn
  have hmmem := (filter_mover_mem hm).1
  obtain ⟨hm0, hm64x, hmeq⟩ := fig_coord_board hlen hpc hsync hmmem
  obtain ⟨hset1, hpi1⟩ := pairInv_remove hpi0 hmmem
  rw [hset1] at hpos1
  cases hpos1
  have hitFacts : ∃ pos2 figs2, hit = (pos2, figs2) ∧ PairInv pos2 figs2 ∧
      pos2.getD d.target.idx.toNat none = none := by
    by_cases hh : d.is_hit = true
    · by_cases hec : epHitCond g d m = true
      · have hepg : g.en_passant = some d.target := by
          unfold epHitCond at hec
          rcases hgE : g.en_passant with _ | e
          · rw [hgE] at hec
            simp at hec
          · rw [hgE] at hec
            simp only [Option.isSome_some, Bool.true_and, Bool.and_eq_true,
              decide_eq_true_eq] at hec
            rw [hec.2]
        obtain ⟨hT0, hTlt, hTgd⟩ := posGet?_some (he hepg)
        simp only [hitPhase, hh, if_true, hec, bind, Option.bind_eq_some, pure,
          Option.some.injEq] at hhit2
        obtain ⟨epFig, hfind, pos2, hpos2, hpair⟩ := hhit2
        have hefmem : epFig ∈ g.figures.erase m := List.mem_of_find?_eq_some hfind
        obtain ⟨he0, helt, -⟩ := posGet?_some (hpi1.2.2.2.1 epFig hefmem)
        obtain ⟨hset2, hpi2⟩ := pairInv_remove hpi1 hefmem
        rw [hset2] at hpos2
        cases hpos2
        refine ⟨_, _, hpair.symm, hpi2, ?_⟩
        by_cases h1 : epFig.coord.idx.toNat = d.target.idx.toNat
        · rw [← h1]
          exact getD_set_self none helt
        · rw [getD_set_ne none h1]
          by_cases h2 : m.coord.idx.toNat = d.target.idx.toNat
          · rw [← h2]
            exact getD_set_self none (by omega)
          · rw [getD_set_ne none h2]
            exact hTgd
      · simp only [hitPhase, hh, if_true, hec, Bool.false_eq_true, if_false, bind,
          Option.bind_eq_some, pure, Option.some.injEq] at hhit2
        obtain ⟨hitFig, hfind, pos2, hpos2, hpair⟩ := hhit2
        have hhfmem : hitFig ∈ g.figures.erase m := List.mem_of_find?_eq_some hfind
        have hhfpred := List.find?_some hfind
        simp only [decide_eq_true_eq] at hhfpred
        obtain ⟨hh0, hhlt, -⟩ := posGet?_some (hpi1.2.2.2.1 hitFig hhfmem)
        obtain ⟨hset2, hpi2⟩ := pairInv_remove hpi1 hhfmem
        rw [hset2] at hpos2
        cases hpos2
        refine ⟨_, _, hpair.symm, hpi2, ?_⟩
        rw [← hhfpred]
        exact getD_set_self none hhlt
    · have hh' : d.is_hit = false := by
        revert hh
        cases d.is_hit <;> simp
      obtain ⟨hT0, hTlt, hTgd⟩ := posGet?_some (hq hh')
      simp only [hitPhase, hh', Bool.false_eq_true, if_false, pure,
        Option.some.injEq] at hhit2
      refine ⟨_, _, hhit2.symm, hpi1, ?_⟩
      by_cases h2 : m.coord.idx.toNat = d.target.idx.toNat
      · rw [← h2]
        exact getD_set_self none (by omega)
      · rw [getD_set_ne none h2]
        exact hTgd
  obtain ⟨pos2, figs2, hhitEq, hpi2, hTnone⟩ := hitFacts
  subst hhitEq
  have hplFacts : PairInv placed.1 placed.2 := by
    by_cases hpr : d.is_promo = true
    · simp only [placePhase, hpr, if_true, bind, Option.bind_eq_some, pure,
        Option.some.injEq] at hplaced
      obtain ⟨pp, hpp, pos3, hpos3, hplEq⟩ := hplaced
      obtain ⟨hset3, hpi3⟩ := @pairInv_insert _ _ ⟨g.color, d.target, pp⟩ _ hpi2
        (by omega) hTnone hteq
      rw [hset3] at hpos3
      cases hpos3
      rw [← hplEq]
      exact hpi3
    · have hpr' : d.is_promo = false := by
        revert hpr
        cases d.is_promo <;> simp
      simp only [placePhase, hpr', Bool.false_eq_true, if_false, bind,
        Option.bind_eq_some, pure, Option.some.injEq] at hplaced
      obtain ⟨pos3, hpos3, hplEq⟩ := hplaced
      simp only [move_to_coord] at hpos3
      obtain ⟨hset3, hpi3⟩ := @pairInv_insert _ _ (m.move_to d.target) _ hpi2
        (by omega) hTnone (by rw [move_to_coord]; exact hteq)
      rw [move_to_coord] at hset3
      rw [hset3] at hpos3
      cases hpos3
      rw [← hplEq]
      exact hpi3
  subst hg'
  exact pairInv_to_good hb hplFacts

/-- The castling branch preserves the inductive invariant, provided the two
landing squares are empty beforehand. -/
theorem good_preserved_castle (g : Game) (q : Bool) (g' : Game)
    (hgs : GoodState g)
    (hkt : posGet? g.position (king_tgt g.color q) = some none)
    (hrt : posGet? g.position (rook_tgt g.color q) = some none)
    (hplay : play_move g (Token.castleTok q) = some g') :
    GoodState g' := by
  obtain ⟨hb, hlen, hpc, hsync⟩ := hgs
  have hpi0 := pairInv_of hlen hpc hsync
  have hcon : 0 ≤ king_src g.color ∧ king_src g.color < 64 ∧
      0 ≤ rook_src g.color q ∧ rook_src g.color q < 64 ∧
      0 ≤ king_tgt g.color q ∧ king_tgt g.color q < 64 ∧
      0 ≤ rook_tgt g.color q ∧ rook_tgt g.color q < 64 ∧
      king_src g.color ≠ rook_src g.color q ∧
      king_tgt g.color q ≠ king_src g.color ∧
      king_tgt g.color q ≠ rook_src g.color q ∧
      rook_tgt g.color q ≠ king_src g.color ∧
      rook_tgt g.color q ≠ rook_src g.color q ∧
      rook_tgt g.color q ≠ king_tgt g.color q := by
    rcases g.color <;> cases q <;> decide
  obtain ⟨hks0, hks64, hrs0, hrs64, hkt0, hkt64, hrt0, hrt64, hksrs, hktks,
    hktrs, hrtks, hrtrs, hrtkt⟩ := hcon
  have hpn : castle g q = some g' := hplay
  simp only [castle, bind, Option.bind_eq_some, pure, Option.some.injEq] at hpn
  obtain ⟨kslot, hks, king, hking, rslot, hrs, rook, hrook, ktc, hktc, rtc, hrtc,
    pos1, hpos1, pos2, hpos2, pos3, hpos3, pos4, hpos4, hg'⟩ := hpn
  subst hking
  subst hrook
  obtain ⟨-, hklt, hkgd⟩ := posGet?_some hks
  obtain ⟨-, hrlt, hrgd⟩ := posGet?_some hrs
  have hkmem : king ∈ g.figures := by
    have := hsync.2.2 (king_src g.color).toNat (by omega)
    unfold slotMemB at this
    rw [hkgd] at this
    simp only [Option.all_some] at this
    exact List.mem_of_elem_eq_true this
  have hrmem : rook ∈ g.figures := by
    have := hsync.2.2 (rook_src g.color q).toNat (by omega)
    unfold slotMemB at this
    rw [hrgd] at this
    simp only [Option.all_some] at this
    exact List.mem_of_elem_eq_true this
  have hkco : king.coord = coordOfIdx (king_src g.color).toNat := by
    have := hpc (king_src g.color).toNat (by omega)
    rw [hkgd] at this
    simpa [slotCoordB] using this
  have hrco : rook.coord = coordOfIdx (rook_src g.color q).toNat := by
    have := hpc (rook_src g.color q).toNat (by omega)
    rw [hrgd] at this
    simpa [slotCoordB] using this
  have hkidx : king.coord.idx = king_src g.color := by
    rw [hkco, coordOfIdx_idx _ (by omega)]
    omega
  have hridx : rook.coord.idx = rook_src g.color q := by
    rw [hrco, coordOfIdx_idx _ (by omega)]
    omega
  have hrk : rook ≠ king := by
    intro he
    rw [he] at hridx
    rw [hkidx] at hridx
    exact hksrs hridx
  have hrmem2 : rook ∈ g.figures.erase king := (List.mem_erase_of_ne hrk).mpr hrmem
  -- the board lookups give the two target coordinates
  rw [hb] at hktc hrtc
  obtain ⟨-, hktlt, hktc2⟩ := boardGet?_mkBoard hktc
  obtain ⟨-, hrtlt, hrtc2⟩ := boardGet?_mkBoard hrtc
  -- step 1: remove the king
  obtain ⟨hsetA, hpiA⟩ := pairInv_remove hpi0 hkmem
  rw [hkidx] at hsetA hpiA
  rw [hsetA] at hpos1
  cases hpos1
  -- step 2: remove the rook
  obtain ⟨hsetB, hpiB⟩ := pairInv_remove hpiA hrmem2
  rw [hridx] at hsetB hpiB
  rw [hsetB] at hpos2
  cases hpos2
  -- step 3: insert the relocated king on the empty target
  obtain ⟨-, -, hktgd⟩ := posGet?_some hkt
  have hkEmpty : ((g.position.set (king_src g.color).toNat none).set
      (rook_src g.color q).toNat none).getD (king_tgt g.color q).toNat none =
      none := by
    rw [getD_set_ne none (by omega), getD_set_ne none (by omega)]
    exact hktgd
  obtain ⟨hsetC, hpiC⟩ := @pairInv_insert _ _ (king.move_to ktc) _ hpiB
    (by omega) hkEmpty (by rw [move_to_coord, hktc2])
  have hkt2 : (king.move_to ktc).coord.idx = king_tgt g.color q := by
    rw [move_to_coord, hktc2, coordOfIdx_idx _ (by omega)]
    omega
  rw [hkt2] at hsetC
  rw [show (king_tgt g.color q).toNat = (king_tgt g.color q).toNat from rfl] at hsetC
  rw [hsetC] at hpos3
  cases hpos3
  -- step 4: insert the relocated rook on the empty target
  obtain ⟨-, -, hrtgd⟩ := posGet?_some hrt
  have hrEmpty : (((g.position.set (king_src g.color).toNat none).set
      (rook_src g.color q).toNat none).set (king_tgt g.color q).toNat
      (some (king.move_to ktc))).getD (rook_tgt g.color q).toNat none = none := by
    rw [getD_set_ne _ (by omega), getD_set_ne none (by omega),
      getD_set_ne none (by omega)]
    exact hrtgd
  obtain ⟨hsetD, hpiD⟩ := @pairInv_insert _ _ (rook.move_to rtc) _ hpiC
    (by omega) hrEmpty (by rw [move_to_coord, hrtc2])
  have hrt2 : (rook.move_to rtc).coord.idx = rook_tgt g.color q := by
    rw [move_to_coord, hrtc2, coordOfIdx_idx _ (by omega)]
    omega
  rw [hrt2] at hsetD
  rw [hsetD] at hpos4
  cases hpos4
  subst hg'
  exact pairInv_to_good hb hpiD

theorem listSet?_some {l : List (Option Figure)} {i : Nat} {v : Option Figure}
    {l' : List (Option Figure)} (h : listSet? l i v = some l') :
    i < l.length ∧ l' = l.set i v := by
  unfold listSet? at h
  split at h
  · rename_i hc
    cases h
    exact ⟨hc, rfl⟩
  · exact absurd h (by simp)

/-- The `fen_to_position` loop keeps the parsed array 64 slots long with
every occupant recording its own square. -/
theorem ftpGo_inv : ∀ (fen : List Char) (i : Nat) (arr : List (Option Figure))
    (out : Nat × List (Option Figure)), arr.length = 64 → posCoordsOK arr →
    ftpGo mkBoard fen i arr = some out →
    out.2.length = 64 ∧ posCoordsOK out.2 := by
  intro fen
  induction fen with
  | nil =>
    intro i arr out hl hp h
    simp only [ftpGo, Option.some.injEq] at h
    rw [← h]
    exact ⟨hl, hp⟩
  | cons c rest ih =>
    intro i arr out hl hp h
    simp only [ftpGo] at h
    split at h
    · exact ih _ _ _ hl hp h
    · split at h
      · exact ih _ _ _ hl hp h
      · simp only [bind, Option.bind_eq_some] at h
        obtain ⟨co, hco, arr1, harr1, h⟩ := h
        obtain ⟨-, hco64, hcoeq⟩ := boardGet?_mkBoard hco
        obtain ⟨hilt, harr1eq⟩ := listSet?_some harr1
        subst harr1eq
        refine ih _ _ _ (by simp [hl]) ?_ h
        intro j hj
        by_cases hje : j = i
        · subst hje
          rw [getD_set_self _ (by omega)]
          simp only [slotCoordB, Option.all_some, decide_eq_true_eq]
          rw [hcoeq]
          simp
        · rw [getD_set_ne _ (fun hh => hje hh.symm)]
          exact hp j hj

/-- An array whose occupants record their own (pairwise distinct) squares
collects into a duplicate-free figure list. -/
theorem filterMap_nodup : ∀ (pos : List (Option Figure)) (k : Nat),
    k + pos.length ≤ 64 →
    (∀ i, i < pos.length → slotCoordB (pos.getD i none) (k + i) = true) →
    (pos.filterMap id).Nodup ∧
      ∀ f ∈ pos.filterMap id, ∃ j, k ≤ j ∧ j < 64 ∧ f.coord = coordOfIdx j := by
  intro pos
  induction pos with
  | nil =>
    intro k hk hs
    simp
  | cons o rest ih =>
    intro k hk hs
    have hrest := ih (k + 1) (by simp at hk ⊢; omega) (fun i hi => by
      have := hs (i + 1) (by simpa using by omega)
      rw [show k + (i + 1) = k + 1 + i from by omega] at this
      simpa using this)
    have hs0 := hs 0 (by simp)
    rcases o with _ | f
    · simp only [List.filterMap_cons_none, id]
      exact ⟨hrest.1, fun f hf => by
        obtain ⟨j, hj1, hj2, hj3⟩ := hrest.2 f hf
        exact ⟨j, by omega, hj2, hj3⟩⟩
    · simp only [slotCoordB, List.getD_cons_zero, Option.all_some,
        decide_eq_true_eq, Nat.add_zero] at hs0
      rw [show List.filterMap id (some f :: rest) = f :: List.filterMap id rest
        from rfl]
      constructor
      · rw [List.nodup_cons]
        refine ⟨?_, hrest.1⟩
        intro hmem
        obtain ⟨j, hj1, hj2, hj3⟩ := hrest.2 f hmem
        have : (coordOfIdx k).idx = (coordOfIdx j).idx := by rw [← hs0, ← hj3]
        rw [coordOfIdx_idx k (by simp at hk; omega), coordOfIdx_idx j hj2] at this
        omega
      · intro f2 hf2
        rcases List.mem_cons.mp hf2 with rfl | hmem
        · exact ⟨k, le_refl k, by simp at hk; omega, hs0⟩
        · obtain ⟨j, hj1, hj2, hj3⟩ := hrest.2 f2 hmem
          exact ⟨j, by omega, hj2, hj3⟩

/-- A parsed position array assembled into a game record is well-formed and
in sync, whatever the other parsed fields hold. -/
theorem parsed_good {p0 : List Char} {pos : List (Option Figure)}
    (hpos : fen_to_position p0 mkBoard = some pos)
    (col : Color) (cast : Castling) (ep : Option Coord) (hmc fmc : Nat) :
    GoodState { board := mkBoard
                position := pos
                figures := pos.filterMap id
                color := col
                castling := cast
                en_passant := ep
                half_move_clock := hmc
                full_move_clock := fmc
                uci := ['0','0','0','0'] } := by
  unfold fen_to_position at hpos
  rw [Option.map_eq_some'] at hpos
  obtain ⟨out, hrun, hpos⟩ := hpos
  subst hpos
  have hrep : posCoordsOK (List.replicate 64 (none : Option Figure)) := by
    intro i hi
    have : (List.replicate 64 (none : Option Figure)).getD i none = none := by
      rw [List.getD_eq_getElem?_getD, List.getElem?_replicate]
      split <;> rfl
    rw [this]
    rfl
  have hinv := ftpGo_inv p0 0 _ out (by simp) hrep hrun
  have hcoords : ∀ i, i < out.2.length →
      slotCoordB (out.2.getD i none) (0 + i) = true := by
    intro i hi
    rw [Nat.zero_add]
    exact hinv.2 i (by rw [hinv.1] at hi; exact hi)
  have hnodup : (out.2.filterMap id).Nodup :=
    (filterMap_nodup out.2 0 (by simp [hinv.1]) hcoords).1
  have hms : ∀ f ∈ out.2.filterMap id,
      posGet? out.2 f.coord.idx = some (some f) := by
    intro f hf
    obtain ⟨o, ho, hid⟩ := List.mem_filterMap.mp hf
    rw [id_eq] at hid
    subst hid
    obtain ⟨n, hn⟩ := List.get?_of_mem ho
    obtain ⟨hlt, -⟩ := List.get?_eq_some.mp hn
    have hn64 : n < 64 := by rw [hinv.1] at hlt; exact hlt
    have hgd : out.2.getD n none = some f := by
      rw [List.getD_eq_getElem?_getD, ← List.get?_eq_getElem?, hn]
      rfl
    have hslot := hinv.2 n hn64
    rw [hgd] at hslot
    simp only [slotCoordB, Option.all_some, decide_eq_true_eq] at hslot
    rw [hslot, coordOfIdx_idx n hn64,
      posGet?_of (by omega) (by rw [hinv.1]; omega)]
    rw [show ((n : Int)).toNat = n from by omega]
    rw [hgd]
  have hsm : ∀ i, i < 64 →
      ((out.2.getD i none).all
        (fun f => (out.2.filterMap id).contains f)) = true := by
    intro i hi
    cases hgd : out.2.getD i none with
    | none => rfl
    | some f =>
      simp only [Option.all_some]
      have hge : out.2.get? i = some (some f) := by
        rw [List.get?_eq_getElem?]
        rcases hge2 : out.2[i]? with _ | o
        · rw [List.getD_eq_getElem?_getD, hge2] at hgd
          exact absurd hgd (by simp)
        · rw [List.getD_eq_getElem?_getD, hge2] at hgd
          simp only [Option.getD_some] at hgd
          rw [hgd]
      have hmemf : f ∈ out.2.filterMap id :=
        List.mem_filterMap.mpr ⟨some f, List.get?_mem hge, rfl⟩
      exact List.elem_eq_true_of_mem hmemf
  exact ⟨rfl, hinv.1, hinv.2, hnodup, hms, hsm⟩

set_option maxHeartbeats 2000000 in
/-- Every successfully parsed FEN string yields a well-formed, in-sync
state. -/
theorem from_str_good {s : List Char} {g : Game} (h : from_str s = some g) :
    GoodState g := by
  unfold from_str at h
  simp only [bind] at h
  simp only [Option.bind_eq_some] at h
  obtain ⟨p0, hp0, p1, hp1, p2, hp2, p3, hp3, p4, hp4, p5, hp5, pos, hpos, c0,
    hc0, col, hcol, h⟩ := h
  by_cases h3 : p3 = ['-']
  · rw [if_pos h3] at h
    simp only [Option.pure_def, Option.bind_eq_some, Option.some.injEq] at h
    obtain ⟨ep, hep, hmc, hhmc, fmc, hfmc, hg⟩ := h
    subst hg
    exact parsed_good hpos col (Castling.from_chars p2) ep hmc fmc
  · rw [if_neg h3] at h
    simp only [Option.pure_def, Option.bind_eq_some, Option.some.injEq] at h
    obtain ⟨c, hcc, ep, hep, hmc, hhmc, fmc, hfmc, hg⟩ := h
    subst hg
    exact parsed_good hpos col (Castling.from_chars p2) ep hmc fmc

/-- C5 part (a): a quiet two-square pawn advance sets the en-passant target
to the skipped square exactly when an enemy pawn stands on an adjacent file
of the destination rank. -/
theorem c5_double_step_sets_ep (g : Game) (d : Draw) (m : Figure) (g' : Game)
    (hwf : WF g) (hsync : Sync g)
    (hm : filter_mover d g = some m) (hp : m.piece = Piece.P)
    (htb : d.target ∈ mkBoard)
    (hady : d.target.y = m.coord.y + 2 * g.color.factor)
    (hhit : d.is_hit = false) (hpromo : d.is_promo = false)
    (hplay : play_move g (Token.normal d) = some g') :
    g'.en_passant =
      (if ∃ f ∈ g.figures, f.color = g.color.next ∧ f.piece = Piece.P ∧
          f.coord.y = d.target.y ∧ (f.coord.x - d.target.x).natAbs = 1 then
        some (coordOfIdx (d.target.idx + g.color.factor * 8).toNat)
      else none) ∧
    (coordOfIdx (d.target.idx + g.color.factor * 8).toNat).x = d.target.x ∧
    (coordOfIdx (d.target.idx + g.color.factor * 8).toNat).y =
      m.coord.y + g.color.factor := by
  obtain ⟨hb, hlen, hpc, hepwf⟩ := hwf
  have hmmem := (filter_mover_mem hm).1
  have hmcol := (filter_mover_mem hm).2.1
  obtain ⟨-, -, hmco⟩ := fig_coord_board hlen hpc hsync hmmem
  obtain ⟨jt, hjt, hteq⟩ := mem_mkBoard_iff.mp htb
  have hpn : playNormal g d = some g' := hplay
  simp only [playNormal, bind, Option.bind_eq_some, pure, Option.some.injEq] at hpn
  obtain ⟨m2, hm2, pos1, hpos1, hit, hhit2, placed, hplaced, epv, hepv, hg'⟩ := hpn
  rw [hm] at hm2
  cases hm2
  simp only [hitPhase, hhit, Bool.false_eq_true, if_false, pure,
    Option.some.injEq] at hhit2
  cases hhit2
  simp only [placePhase, hpromo, Bool.false_eq_true, if_false, bind,
    Option.bind_eq_some, pure, Option.some.injEq] at hplaced
  obtain ⟨pos3, hpos3, hplaced⟩ := hplaced
  cases hplaced
  have hcond : (decide (m.piece = Piece.P) &&
      decide ((m.coord.y - d.target.y).natAbs = 2)) = true := by
    rw [hp, hady]
    cases g.color <;> simp [Color.factor]
  simp only [epPhase, hcond, if_true, bind, Option.bind_eq_some, pure,
    Option.some.injEq] at hepv
  obtain ⟨epc, hepc, hepv⟩ := hepv
  rw [hb] at hepc
  obtain ⟨hsk0, hsk64, hepceq⟩ := boardGet?_mkBoard hepc
  subst hg'
  have hmemiff : ∀ f : Figure,
      (f ∈ List.insert (m.move_to d.target) (g.figures.erase m) ∧
        f.color = g.color.next) ↔ (f ∈ g.figures ∧ f.color = g.color.next) := by
    intro f
    constructor
    · rintro ⟨hfm, hfc⟩
      rcases List.mem_insert_iff.mp hfm with rfl | hfe
      · exact absurd hfc (by
          show ¬ (m.move_to d.target).color = g.color.next
          have : (m.move_to d.target).color = m.color := rfl
          rw [this, hmcol]
          exact fun hh => color_next_ne g.color hh.symm)
      · exact ⟨(g.figures.erase_subset m) hfe, hfc⟩
    · rintro ⟨hfm, hfc⟩
      have hne : f ≠ m := by
        intro hfeq
        rw [hfeq, hmcol] at hfc
        exact color_next_ne g.color hfc.symm
      exact ⟨List.mem_insert_iff.mpr (Or.inr ((List.mem_erase_of_ne hne).mpr hfm)),
        hfc⟩
  have hemp : ((List.insert (m.move_to d.target) (g.figures.erase m)).filter
      (fun f => decide (f.color = g.color.next ∧ f.piece = Piece.P ∧
        f.coord.y = d.target.y ∧ (f.coord.x - d.target.x).natAbs = 1))).isEmpty =
      true ↔
      ¬ ∃ f ∈ g.figures, f.color = g.color.next ∧ f.piece = Piece.P ∧
        f.coord.y = d.target.y ∧ (f.coord.x - d.target.x).natAbs = 1 := by
    rw [List.isEmpty_iff, List.filter_eq_nil_iff]
    constructor
    · rintro hall ⟨f, hf, hfc, hrest⟩
      have hmem := (hmemiff f).mpr ⟨hf, hfc⟩
      exact absurd (by simp [hfc, hrest] : _) (hall f hmem.1)
    · intro hno f hf hpf
      simp only [decide_eq_true_eq] at hpf
      have := (hmemiff f).mp ⟨hf, hpf.1⟩
      exact hno ⟨f, this.1, hpf.1, hpf.2⟩
  refine ⟨?_, ?_, ?_⟩
  · subst hepv
    subst hepceq
    by_cases hex : ∃ f ∈ g.figures, f.color = g.color.next ∧ f.piece = Piece.P ∧
        f.coord.y = d.target.y ∧ (f.coord.x - d.target.x).natAbs = 1
    · rw [if_pos hex, if_neg]
      intro hfalse
      exact (hemp.mp hfalse) hex
    · rw [if_neg hex, if_pos (hemp.mpr hex)]
  · rw [hteq] at hsk0 hsk64 ⊢
    rw [coordOfIdx_idx jt hjt] at hsk0 hsk64 ⊢
    rw [coordOfIdx_x, coordOfIdx_x]
    have hf : g.color.factor = 1 ∨ g.color.factor = -1 := by
      cases g.color <;> simp [Color.factor]
    rcases hf with hf | hf <;> rw [hf] at hsk0 hsk64 ⊢ <;> omega
  · rw [hteq] at hady hsk0 hsk64 ⊢
    rw [coordOfIdx_idx jt hjt] at hsk0 hsk64 ⊢
    rw [coordOfIdx_y] at hady
    rw [coordOfIdx_y]
    have hf : g.color.factor = 1 ∨ g.color.factor = -1 := by
      cases g.color <;> simp [Color.factor]
    rcases hf with hf | hf <;> rw [hf] at hady hsk0 hsk64 ⊢ <;> omega

/-- C5 part (b): a capture token whose pawn mover enters the current
en-passant target square removes the enemy pawn one rank behind that square,
puts the capturing pawn on the (previously empty) target square, and leaves
every slot other than the mover's source, the removed pawn's square and the
target square untouched. -/
theorem c5_ep_capture_removes (g : Game) (d : Draw) (m fb : Figure) (g' : Game)
    (hwf : WF g) (hsync : Sync g)
    (hm : filter_mover d g = some m) (hp : m.piece = Piece.P)
    (hept : g.en_passant = some d.target)
    (hhit : d.is_hit = true) (hpromo : d.is_promo = false)
    (hfb : fb ∈ g.figures) (hfbc : fb.color = g.color.next)
    (hfbp : fb.piece = Piece.P)
    (hfbx : fb.coord.x = d.target.x)
    (hfby : fb.coord.y = d.target.y + g.color.next.factor)
    (hplay : play_move g (Token.normal d) = some g') :
    posGet? g'.position fb.coord.idx = some none ∧
    posGet? g'.position d.target.idx = some (some (m.move_to d.target)) ∧
    (∀ i : Int, i ≠ m.coord.idx → i ≠ fb.coord.idx → i ≠ d.target.idx →
      posGet? g'.position i = posGet? g.position i) := by
  obtain ⟨hb, hlen, hpc, hepwf⟩ := hwf
  have hmmem := (filter_mover_mem hm).1
  have hmcol := (filter_mover_mem hm).2.1
  have htb : d.target ∈ mkBoard := by
    rw [hept] at hepwf
    simp only [Option.all_some] at hepwf
    exact List.mem_of_elem_eq_true hepwf
  obtain ⟨ht0, ht64, hteq⟩ := board_coord_eq htb
  obtain ⟨hfb0, hfb64, hfbeq⟩ := fig_coord_board hlen hpc hsync hfb
  obtain ⟨hm0, hm64, hmeq⟩ := fig_coord_board hlen hpc hsync hmmem
  have hnf : g.color.next.factor = 1 ∨ g.color.next.factor = -1 := by
    cases g.color <;> simp [Color.next, Color.factor]
  have hfbtne : fb.coord ≠ d.target := by
    intro he
    rw [he] at hfby
    rcases hnf with hf | hf <;> rw [hf] at hfby <;> omega
  have hfbt : fb.coord.idx.toNat ≠ d.target.idx.toNat := by
    intro he
    exact hfbtne (by rw [hfbeq, hteq, he])
  have hfbm : fb ≠ m := by
    intro he
    rw [he, hmcol] at hfbc
    exact color_next_ne g.color hfbc.symm
  have hfbmidx : m.coord.idx.toNat ≠ fb.coord.idx.toNat := by
    intro he
    have hcc : fb.coord = m.coord := by rw [hfbeq, hmeq, he]
    exact hfbm (figures_coord_inj hlen hpc hsync hfb hmmem (by rw [hcc]) (by rw [hcc]))
  have hpn : playNormal g d = some g' := hplay
  simp only [playNormal, bind, Option.bind_eq_some, pure, Option.some.injEq] at hpn
  obtain ⟨m2, hm2, pos1, hpos1, hit, hhit2, placed, hplaced, epv, hepv, hg'⟩ := hpn
  rw [hm] at hm2
  cases hm2
  obtain ⟨hm0', hmlen, hpos1eq⟩ := posSet?_some hpos1
  subst hpos1eq
  have hcond : epHitCond g d m = true := by
    rw [epHitCond, hept, hp]
    simp
  simp only [hitPhase, hhit, if_true, hcond, bind, Option.bind_eq_some, pure,
    Option.some.injEq] at hhit2
  obtain ⟨epFig, hfind, pos2, hpos2, hhit2⟩ := hhit2
  cases hhit2
  have hefmem := List.mem_of_find?_eq_some hfind
  have hefpred := List.find?_some hfind
  simp only [decide_eq_true_eq] at hefpred
  have hefmem2 : epFig ∈ g.figures := List.mem_of_mem_erase hefmem
  have hef : epFig = fb := by
    apply figures_coord_inj hlen hpc hsync hefmem2 hfb
    · rw [hefpred.2.1, hfbx]
    · rw [hefpred.2.2, hfby]
  subst hef
  obtain ⟨hfb0', hfblen, hpos2eq⟩ := posSet?_some hpos2
  subst hpos2eq
  simp only [placePhase, hpromo, Bool.false_eq_true, if_false, bind,
    Option.bind_eq_some, pure, Option.some.injEq] at hplaced
  obtain ⟨pos3, hpos3, hplaced⟩ := hplaced
  cases hplaced
  simp only [move_to_coord] at hpos3
  obtain ⟨ht0', htlen, hpos3eq⟩ := posSet?_some hpos3
  subst hpos3eq
  subst hg'
  refine ⟨?_, ?_, ?_⟩
  · rw [posGet?_set_ne _ (fun he => hfbt he.symm)]
    exact posGet?_set_self none hfb0 hfblen
  · exact posGet?_set_self _ ht0 htlen
  · intro i hi1 hi2 hi3
    by_cases hneg : i < 0
    · unfold posGet?
      rw [if_pos hneg, if_pos hneg]
    · have hi0 : 0 ≤ i := by omega
      rw [posGet?_set_ne _ (by omega), posGet?_set_ne _ (by omega),
        posGet?_set_ne _ (by omega)]

/-- C5: (a) a quiet two-square pawn advance sets the en-passant target to the
skipped-over square (same file as the target, one rank behind it in the
mover's direction) if and only if an enemy pawn stands on an adjacent file
of the destination rank; (b) a subsequent capture token in which a pawn
moves into the current en-passant target square removes the enemy pawn one
rank behind that square, places the capturing pawn on the previously empty
target square, and leaves every other square's occupant intact. -/
theorem C5_en_passant :
    (∀ (g : Game) (d : Draw) (m : Figure) (g' : Game),
      WF g → Sync g → filter_mover d g = some m → m.piece = Piece.P →
      d.target ∈ mkBoard → d.target.y = m.coord.y + 2 * g.color.factor →
      d.is_hit = false → d.is_promo = false →
      play_move g (Token.normal d) = some g' →
      g'.en_passant =
        (if ∃ f ∈ g.figures, f.color = g.color.next ∧ f.piece = Piece.P ∧
            f.coord.y = d.target.y ∧ (f.coord.x - d.target.x).natAbs = 1 then
          some (coordOfIdx (d.target.idx + g.color.factor * 8).toNat)
        else none) ∧
      (coordOfIdx (d.target.idx + g.color.factor * 8).toNat).x = d.target.x ∧
      (coordOfIdx (d.target.idx + g.color.factor * 8).toNat).y =
        m.coord.y + g.color.factor) ∧
    (∀ (g : Game) (d : Draw) (m fb : Figure) (g' : Game),
      WF g → Sync g → filter_mover d g = some m → m.piece = Piece.P →
      g.en_passant = some d.target → d.is_hit = true → d.is_promo = false →
      fb ∈ g.figures → fb.color = g.color.next → fb.piece = Piece.P →
      fb.coord.x = d.target.x → fb.coord.y = d.target.y + g.color.next.factor →
      play_move g (Token.normal d) = some g' →
      posGet? g'.position fb.coord.idx = some none ∧
      posGet? g'.position d.target.idx = some (some (m.move_to d.target)) ∧
      (∀ i : Int, i ≠ m.coord.idx → i ≠ fb.coord.idx → i ≠ d.target.idx →
        posGet? g'.position i = posGet? g.position i)) :=
  ⟨c5_double_step_sets_ep, c5_ep_capture_removes⟩

/-- C5 witness: from the position with the white pawn e2 and the black pawn
d4, "e4" sets the en-passant target e3 (index 44); the reply "dxe3" then
empties e4 and puts the black pawn on e3. -/
theorem C5_witness :
    play_move c5game (Token.normal (drawPlain Piece.P 'e' '4' false none none)) =
      some c5mid ∧
    c5mid.en_passant = some (coordOfIdx 44) ∧
    play_move c5mid (Token.normal c5draw2) = some c5after ∧
    posGet? c5after.position (coordAb 'e' '4').idx = some none ∧
    posGet? c5after.position (coordAb 'e' '3').idx =
      some (some ⟨Color.B, coordAb 'e' '3', Piece.P⟩) := by
  have ha := C5_en_passant.1 c5game (drawPlain Piece.P 'e' '4' false none none)
    ⟨Color.W, coordAb 'e' '2', Piece.P⟩ c5mid (by decide) (by decide) (by decide)
    (by decide) (by decide) (by decide) (by decide) (by decide) (by decide)
  have hcap := C5_en_passant.2 c5mid c5draw2 ⟨Color.B, coordAb 'd' '4', Piece.P⟩
    ⟨Color.W, coordAb 'e' '4', Piece.P⟩ c5after (by decide) (by decide) (by decide)
    (by decide) (by decide) (by decide) (by decide) (by decide) (by decide)
    (by decide) (by decide) (by decide) (by decide)
  refine ⟨by decide, ?_, by decide, ?_, ?_⟩
  · rw [ha.1]
    decide
  · exact hcap.1
  · exact hcap.2.1

/-- C6: on the board with the white king on h2 and a1 empty, the king's
computed destination set contains a1 (index 56) even though a1 is 7 files
away from h2 — the guard compares the mover's rank to the target's FILE and
joins the two tests with a disjunction. -/
theorem C6_king_moves_nonadjacent :
    fromFenString "k7/8/8/8/8/8/7K/8 w - - 0 1" = some c6game ∧
    posGet? c6game.position c6king.coord.idx = some (some c6king) ∧
    (get_moves c6king c6game).contains (coordOfIdx 56) = true ∧
    (c6king.coord.x - (coordOfIdx 56).x).natAbs = 7 := by
  decide

/-- C9: `Coord::from` accepts the token "A1" although 'A' lies below the
valid file range 'a'..'h' — the assertion checks only the upper bounds
`x < 8 && y < 8`, so the below-range file yields `x = -32` and the parse
succeeds instead of failing. -/
theorem C9_accepts_below_range :
    coordFromChars 'A' '1' =
      some ⟨'A', '1', -32, 0, 24, -32, 39⟩ ∧
    ¬('a' ≤ 'A' ∧ 'A' ≤ 'h') := by
  decide

/-- C1 counterexample: in the position with white rooks on a1 and a3 the
quiet token "Ra2" leaves TWO candidates after every stage of the cascade
(kind/side, disambiguator, reachability, self-check), yet the engine does not
fail: it silently selects the first surviving rook and the move applies
successfully. -/
theorem C1_counterexample :
    fromFenString "7k/8/8/8/8/R7/8/R6K w - - 0 1" = some c1game ∧
    (stage1list c1draw c1game).length = 2 ∧
    (stage2list (stage1list c1draw c1game) c1draw).length = 2 ∧
    (stage3list (stage2list (stage1list c1draw c1game) c1draw) c1draw
      c1game).length = 2 ∧
    pinSurvivors (stage3list (stage2list (stage1list c1draw c1game) c1draw)
        c1draw c1game) c1draw c1game =
      some [figureOfChars 'R' 'a' '3', figureOfChars 'R' 'a' '1'] ∧
    filter_mover c1draw c1game = some (figureOfChars 'R' 'a' '3') ∧
    (play_move c1game (Token.normal c1draw)).isSome = true := by
  decide

/-- C1 amended: when no stage of the cascade early-exits with a single
candidate and the self-check stage leaves two or more survivors, the engine
does not fail with an AmbiguousMover error: it returns the first survivor in
the figure set's iteration order (and when the survivor list is empty the
final `unwrap` panics instead of producing a typed NoLegalMover error). -/
theorem C1_amended_first_survivor (d : Draw) (g : Game)
    (h1 : (stage1list d g).length ≠ 1)
    (h2 : (stage2list (stage1list d g) d).length ≠ 1)
    (h3 : (stage3list (stage2list (stage1list d g) d) d g).length ≠ 1)
    (l : List Figure)
    (hs : pinSurvivors (stage2list (stage1list d g) d |>
      (stage3list · d g)) d g = some l)
    (hl : 2 ≤ l.length) :
    filter_mover d g = l.head? ∧ (filter_mover d g).isSome = true := by
  have hfm : filter_mover d g = l.head? := by
    simp only [filter_mover, filter_on_remainder, filter_on_moves, filter_on_pins]
    rw [if_neg h1, if_neg h2, if_neg h3]
    simp only [bind, Option.bind]
    rw [hs]
  refine ⟨hfm, ?_⟩
  rw [hfm]
  cases l with
  | nil => simp at hl
  | cons x xs => simp

/-- C1 amended witness: the two-rook position — every stage keeps both rooks,
and the engine returns the first of the two survivors. -/
theorem C1_amended_witness :
    filter_mover c1draw c1game =
      [figureOfChars 'R' 'a' '3', figureOfChars 'R' 'a' '1'].head? ∧
    (filter_mover c1draw c1game).isSome = true :=
  C1_amended_first_survivor c1draw c1game (by decide) (by decide) (by decide)
    [figureOfChars 'R' 'a' '3', figureOfChars 'R' 'a' '1'] (by decide) (by decide)

/-- C3 counterexample: from the parsed position with the lone white rook a1
and the white king on a2, the quiet token "Ra2" applies successfully (the
rook is the stage-1 single candidate, so reachability is never tested) and
overwrites the king's array slot while the king stays in the figure set —
the two views no longer describe the same position. -/
theorem C3_counterexample :
    fromFenString "8/8/8/8/8/8/K7/R7 w - - 0 1" = some c3game ∧
    SyncIff c3game ∧
    play_move c3game (Token.normal c1draw) = some c3after ∧
    ¬ SyncIff c3after := by
  refine ⟨by decide, syncIff_of_sync c3game (by decide) (by decide), by decide, ?_⟩
  intro h
  have hmem : figureOfChars 'K' 'a' '2' ∈ c3after.figures := by decide
  have := (h (figureOfChars 'K' 'a' '2')).mp hmem
  exact absurd this (by decide)

theorem boardAt_eq {g : Game} (hb : g.board = mkBoard) {t : Int} (h0 : 0 ≤ t)
    (h64 : t < 64) : boardAt g t = coordOfIdx t.toNat := by
  unfold boardAt boardGet?
  rw [hb, if_neg (by omega)]
  have ht : t.toNat < 64 := by omega
  simp [mkBoard, List.get?_eq_getElem?, List.getElem?_map, List.getElem?_range, ht]

/-- Membership in one capture direction of `get_pawn_hits`. -/
theorem mem_pawnHitDir {fig : Figure} {g : Game} {t ti : Int} :
    ti ∈ pawnHitDir fig g t ↔
      (ti = t ∧ valid_idx t = true ∧
        ((posAt g t).any (fun q => decide (q.color ≠ fig.color)) = true ∨
         (posAt g t = none ∧ ∃ e, g.en_passant = some e ∧ e.idx = t))) := by
  unfold pawnHitDir
  by_cases hv : valid_idx t = true
  · rcases hpos : posAt g t with _ | q
    · rcases hep : g.en_passant with _ | e
      · simp [hv, hpos, hep]
      · by_cases hei : e.idx = t
        · simp [hv, hpos, hep, hei]
        · simp [hv, hpos, hep, hei]
    · by_cases hcol : q.color = fig.color
      · simp [hv, hpos, hcol]
      · simp [hv, hpos, hcol]
  · simp [hv]

/-- C7 counterexample: the white pawn on a4 (file distance 7 from h6) has the
enemy-occupied square h6 in its capture-destination set — the index
arithmetic `ci - f*9` wraps around the board edge and no file check exists. -/
theorem C7_counterexample :
    fromFenString "k7/8/7p/8/P7/8/8/K7 w - - 0 1" = some c7game ∧
    posGet? c7game.position c7pawn.coord.idx = some (some c7pawn) ∧
    get_hits c7pawn c7game = [coordOfIdx 23] ∧
    ((coordOfIdx 23).x - c7pawn.coord.x).natAbs = 7 ∧
    (coordOfIdx 23).y = c7pawn.coord.y + c7pawn.color.factor + 1 := by
  decide

/-- C7 amended: away from the board edge (pawn file b–g) the claim holds
with the en-passant disjunct restricted to empty squares, as the code tests
it: the capture-destination set contains exactly the two squares one file
aside and one rank ahead in the pawn's direction that are enemy-occupied, or
empty and equal to the en-passant target.  (On the a/h files the index
arithmetic wraps to the opposite edge — see the counterexample.) -/
theorem C7_amended_interior_files (g : Game) (fcol : Color) (fco : Coord)
    (hb : g.board = mkBoard) (hfc : fco ∈ mkBoard)
    (hep : g.en_passant.all (fun c => mkBoard.contains c) = true)
    (hx1 : 1 ≤ fco.x) (hx6 : fco.x ≤ 6) :
    ∀ c : Coord, c ∈ get_hits ⟨fcol, fco, Piece.P⟩ g ↔
      (c ∈ mkBoard ∧ (c.x - fco.x).natAbs = 1 ∧
        c.y = fco.y + fcol.factor ∧
        ((posAt g c.idx).any (fun q => decide (q.color ≠ fcol)) = true ∨
         (posAt g c.idx = none ∧ g.en_passant = some c))) := by
  intro c
  obtain ⟨i, hi, rfl⟩ := mem_mkBoard_iff.mp hfc
  rw [coordOfIdx_x] at hx1 hx6
  have hepmem : ∀ e : Coord, g.en_passant = some e → e ∈ mkBoard := by
    intro e he
    rw [he] at hep
    simp only [Option.all_some] at hep
    exact List.mem_of_elem_eq_true hep
  have hhits : get_hits ⟨fcol, coordOfIdx i, Piece.P⟩ g =
      (get_pawn_hits ⟨fcol, coordOfIdx i, Piece.P⟩ g).map (boardAt g) := rfl
  rw [hhits]
  unfold get_pawn_hits
  simp only [coordOfIdx_idx i hi]
  constructor
  · intro hc
    obtain ⟨ti, hti, rfl⟩ := List.mem_map.mp hc
    have main : ∀ t : Int, ti ∈ pawnHitDir ⟨fcol, coordOfIdx i, Piece.P⟩ g t →
        (t = (i : Int) - fcol.factor * 7 ∨ t = (i : Int) - fcol.factor * 9) →
        (boardAt g ti ∈ mkBoard ∧
          ((boardAt g ti).x - (coordOfIdx i).x).natAbs = 1 ∧
          (boardAt g ti).y = (coordOfIdx i).y + fcol.factor ∧
          ((posAt g (boardAt g ti).idx).any (fun q => decide (q.color ≠ fcol)) = true ∨
           (posAt g (boardAt g ti).idx = none ∧ g.en_passant = some (boardAt g ti)))) := by
      intro t hmem hdir
      obtain ⟨rfl, hvalid, hcond⟩ := mem_pawnHitDir.mp hmem
      have hrange : 0 ≤ ti ∧ ti < 64 := by simpa [valid_idx] using hvalid
      have hba : boardAt g ti = coordOfIdx ti.toNat :=
        boardAt_eq hb hrange.1 hrange.2
      have hidx : (boardAt g ti).idx = ti := by
        rw [hba, coordOfIdx_idx ti.toNat (by omega)]
        omega
      refine ⟨by rw [hba]; exact mem_mkBoard_iff.mpr ⟨ti.toNat, by omega, rfl⟩,
        ?_, ?_, ?_⟩
      · rw [hba, coordOfIdx_x, coordOfIdx_x]
        rcases fcol <;> simp only [Color.factor] at hdir <;> omega
      · rw [hba, coordOfIdx_y, coordOfIdx_y]
        rcases fcol <;> simp only [Color.factor] at hdir ⊢ <;> omega
      · rw [hidx]
        rcases hcond with h | ⟨hnone, e, hee, hei⟩
        · exact Or.inl h
        · refine Or.inr ⟨hnone, ?_⟩
          have hemem := hepmem e hee
          obtain ⟨-, -, he⟩ := board_coord_eq hemem
          rw [hee, hba]
          rw [he, hei]
    rcases List.mem_append.mp hti with h | h
    · exact main _ h (Or.inl rfl)
    · exact main _ h (Or.inr rfl)
  · rintro ⟨hcb, hdx, hdy, hcond⟩
    obtain ⟨j, hj, rfl⟩ := mem_mkBoard_iff.mp hcb
    rw [coordOfIdx_x, coordOfIdx_x] at hdx
    rw [coordOfIdx_y, coordOfIdx_y] at hdy
    rw [coordOfIdx_idx j hj] at hcond
    have hdir : (j : Int) = (i : Int) - fcol.factor * 7 ∨
        (j : Int) = (i : Int) - fcol.factor * 9 := by
      rcases Int.natAbs_eq_iff.mp hdx with h1 | h1 <;>
        rcases fcol <;> simp only [Color.factor] at hdy ⊢ <;> omega
    have hcond' : ((posAt g (j : Int)).any (fun q => decide (q.color ≠ fcol)) = true ∨
        (posAt g (j : Int) = none ∧
          ∃ e, g.en_passant = some e ∧ e.idx = (j : Int))) := by
      rcases hcond with h | ⟨h1, h2⟩
      · exact Or.inl h
      · exact Or.inr ⟨h1, coordOfIdx j, h2, coordOfIdx_idx j hj⟩
    have hmem : (j : Int) ∈ pawnHitDir ⟨fcol, coordOfIdx i, Piece.P⟩ g (j : Int) :=
      mem_pawnHitDir.mpr ⟨rfl, by simp [valid_idx]; omega, hcond'⟩
    have hba : boardAt g (j : Int) = coordOfIdx j := by
      rw [boardAt_eq hb (by omega) (by omega)]
      simp
    refine List.mem_map.mpr ⟨(j : Int), ?_, hba⟩
    rcases hdir with h | h
    · exact List.mem_append.mpr (Or.inl (by rw [← h]; exact hmem))
    · exact List.mem_append.mpr (Or.inr (by rw [← h]; exact hmem))

/-- C7 amended witness: the white pawn on e4 with a black pawn on d5 — d5 is
in the capture set, and instantiating the theorem at g5 (empty, no en-passant
target) shows g5 is not. -/
theorem C7_amended_int_witness :
    coordAb 'd' '5' ∈ get_hits ⟨Color.W, coordAb 'e' '4', Piece.P⟩ c7game2 ∧
    ¬ coordAb 'g' '5' ∈ get_hits ⟨Color.W, coordAb 'e' '4', Piece.P⟩ c7game2 := by
  constructor
  · exact (C7_amended_interior_files c7game2 Color.W (coordAb 'e' '4') (by decide)
      (by decide) (by decide) (by decide) (by decide) (coordAb 'd' '5')).mpr (by decide)
  · intro h
    have := (C7_amended_interior_files c7game2 Color.W (coordAb 'e' '4') (by decide)
      (by decide) (by decide) (by decide) (by decide) (coordAb 'g' '5')).mp h
    exact absurd this (by decide)

/-- C8 counterexample: two engine states reached by the same fixed sequence
1.e4 e5 2.Ne2 Nf6 from the initial position, agreeing on every field and
holding the same figure set, but with different iteration orders of that
set, produce different position strings after the same token "Nc3" — the
ambiguous token resolves to whichever knight the set yields first. -/
theorem C8_counterexample :
    applySeq gameNew c8toks = some c8gameA ∧
    c8gameA.figures.Perm c8gameB.figures ∧
    c8gameB.position = c8gameA.position ∧
    c8gameB.color = c8gameA.color ∧
    c8gameB.castling = c8gameA.castling ∧
    c8gameB.en_passant = c8gameA.en_passant ∧
    (play_move c8gameA (Token.normal c8draw)).map to_fen ≠
      (play_move c8gameB (Token.normal c8draw)).map to_fen := by
  decide

/-- C10: the castling branch never touches the en-passant field: a successful
castling move leaves it exactly as it was before the call. -/
theorem C10_castle_preserves_ep (g : Game) (q : Bool) (g' : Game)
    (h : play_move g (Token.castleTok q) = some g') :
    g'.en_passant = g.en_passant := by
  simp only [play_move, castle, bind, Option.bind_eq_some, Option.pure_def,
    Option.some.injEq] at h
  obtain ⟨a, -, b, -, c, -, d, -, e, -, f, -, p1, -, p2, -, p3, -, p4, -, hg⟩ := h
  subst hg
  rfl

/-- C10 witness: Black castles kingside out of `c10game`, whose en-passant
target e3 (set by White's previous double step) survives the call and is
still rendered in the position string. -/
theorem C10_witness :
    play_move c10game (Token.castleTok false) = some c10after ∧
    c10after.en_passant = c10game.en_passant ∧
    c10game.en_passant = some (coordAb 'e' '3') := by
  refine ⟨by decide, C10_castle_preserves_ep c10game false c10after (by decide),
    by decide⟩

/-- C3 (amended): the array/set synchronisation invariant — a figure is in
the set iff the array slot at its square's index holds exactly that figure —
holds for the starting position and for every successfully parsed position
string, and both branches of a successful `play_move` preserve it provided
the landing squares are empty where the code assumes them to be: for the
ordinary branch, an on-board target that is empty beforehand when the token
is quiet or an en-passant capture (plain captures remove the occupant
first); for the castling branch, empty king and rook destination squares.
The unamended claim fails because the stage-1 early exit can accept a quiet
token onto an occupied square (see the counterexample). -/
theorem C3_sync_invariant :
    (GoodState gameNew ∧ SyncIff gameNew) ∧
    (∀ (s : List Char) (g : Game), from_str s = some g →
      GoodState g ∧ SyncIff g) ∧
    (∀ (g : Game) (d : Draw) (g' : Game), GoodState g → d.target ∈ mkBoard →
      (d.is_hit = false → posGet? g.position d.target.idx = some none) →
      (g.en_passant = some d.target →
        posGet? g.position d.target.idx = some none) →
      play_move g (Token.normal d) = some g' → GoodState g' ∧ SyncIff g') ∧
    (∀ (g : Game) (q : Bool) (g' : Game), GoodState g →
      posGet? g.position (king_tgt g.color q) = some none →
      posGet? g.position (rook_tgt g.color q) = some none →
      play_move g (Token.castleTok q) = some g' →
      GoodState g' ∧ SyncIff g') := by
  have key : ∀ g : Game, GoodState g → GoodState g ∧ SyncIff g :=
    fun g h => ⟨h, syncIff_of_sync g h.2.1 h.2.2.2⟩
  refine ⟨key _ (by decide), fun s g h => key _ (from_str_good h),
    fun g d g' hgs htb hq he hp =>
      key _ (good_preserved_normal g d g' hgs htb hq he hp),
    fun g q g' hgs hk hr hp =>
      key _ (good_preserved_castle g q g' hgs hk hr hp)⟩

/-- C3 witness: the invariant survives the quiet pawn push "e4" out of
`c5game` and White's kingside castle out of `c2game`. -/
theorem C3_witness :
    GoodState c5mid ∧ SyncIff c5mid ∧ GoodState c2after ∧ SyncIff c2after := by
  have h1 := C3_sync_invariant.2.2.1 c5game
    (drawPlain .P 'e' '4' false none none) c5mid (by decide) (by decide)
    (by decide) (by decide) (by decide)
  have h2 := C3_sync_invariant.2.2.2 c2game false c2after (by decide)
    (by decide) (by decide) (by decide)
  exact ⟨h1.1, h1.2, h2.1, h2.2⟩

/-- Move generation reads only the position array, the board table and the
en-passant field, so it is blind to the figure set's iteration order. -/
theorem moveGen_congr {g1 g2 : Game} (hp : g2.position = g1.position)
    (hb : g2.board = g1.board) (he : g2.en_passant = g1.en_passant)
    (f : Figure) :
    get_moves f g2 = get_moves f g1 ∧ get_hits f g2 = get_hits f g1 := by
  have hpa : posAt g2 = posAt g1 := by
    funext i
    unfold posAt posGet?
    rw [hp]
  have hba : boardAt g2 = boardAt g1 := by
    funext i
    unfold boardAt boardGet?
    rw [hb]
  have hray : ∀ d ol fuel f0,
      rayGo g2 f d ol fuel f0 = rayGo g1 f d ol fuel f0 := by
    intro d ol fuel
    induction fuel with
    | zero => intro f0; rfl
    | succ n ih =>
      intro f0
      simp only [rayGo, hpa, hba, ih]
  have hpm : get_pawn_moves f g2 = get_pawn_moves f g1 := by
    simp only [get_pawn_moves, hpa]
  have hph : get_pawn_hits f g2 = get_pawn_hits f g1 := by
    simp only [get_pawn_hits, pawnHitDir, hpa, he]
  have hn : get_knight_moves f g2 = get_knight_moves f g1 := by
    simp only [get_knight_moves, hpa, hba]
  have hbm : get_bishop_moves f g2 = get_bishop_moves f g1 := by
    simp only [get_bishop_moves, hray]
  have hrm : get_rook_moves f g2 = get_rook_moves f g1 := by
    simp only [get_rook_moves, hray]
  have hk : get_king_moves f g2 = get_king_moves f g1 := by
    simp only [get_king_moves, hpa, hba]
  have hgm : get_moves f g2 = get_moves f g1 := by
    unfold get_moves
    rw [hba]
    cases f.piece <;>
      simp only [hpm, hn, hbm, hrm, hk, get_queen_moves]
  refine ⟨hgm, ?_⟩
  unfold get_hits
  cases f.piece <;> simp only [hph, hba, hgm]

theorem perm_isEmpty {α : Type} {l1 l2 : List α} (h : l2.Perm l1) :
    l2.isEmpty = l1.isEmpty := by
  cases l2 with
  | nil =>
    rw [h.symm.eq_nil]
  | cons a t =>
    cases l1 with
    | nil => exact absurd h.eq_nil (by simp)
    | cons b s => rfl

theorem two_mem_length {α : Type} {l : List α} {x y : α} (hx : x ∈ l)
    (hy : y ∈ l) (hne : x ≠ y) : 2 ≤ l.length := by
  induction l with
  | nil => cases hx
  | cons a t ih =>
    rcases List.mem_cons.mp hx with rfl | hx'
    · rcases List.mem_cons.mp hy with rfl | hy'
      · exact absurd rfl hne
      · have := List.length_pos_of_mem hy'
        simp only [List.length_cons]
        omega
    · rcases List.mem_cons.mp hy with rfl | hy'
      · have := List.length_pos_of_mem hx'
        simp only [List.length_cons]
        omega
      · have := ih hx' hy'
        simp only [List.length_cons]
        omega

theorem unique_of_filter_le_one {α : Type} {l : List α} {p : α → Bool}
    (h : (l.filter p).length ≤ 1) {x y : α} (hx : x ∈ l) (hy : y ∈ l)
    (hpx : p x = true) (hpy : p y = true) : x = y := by
  by_contra hne
  have hxf : x ∈ l.filter p := List.mem_filter.mpr ⟨hx, hpx⟩
  have hyf : y ∈ l.filter p := List.mem_filter.mpr ⟨hy, hpy⟩
  have := two_mem_length hxf hyf hne
  omega

theorem find?_perm_unique {α : Type} {l1 l2 : List α} (hperm : l2.Perm l1)
    {p : α → Bool} {a : α}
    (hu : ∀ x ∈ l1, ∀ y ∈ l1, p x = true → p y = true → x = y)
    (h : l1.find? p = some a) : l2.find? p = some a := by
  have hmem := List.mem_of_find?_eq_some h
  have hpa := List.find?_some h
  exact find?_eq_some_of_unique (hperm.mem_iff.mpr hmem) hpa
    (fun b hb hpb => hu b (hperm.subset hb) a hmem hpb hpa)

theorem eq_singleton_of_length_one {α : Type} {l : List α} {a : α}
    (hl : l.length = 1) (h : l.head? = some a) : l = [a] := by
  cases l with
  | nil => cases h
  | cons x t =>
    simp only [List.head?, Option.some.injEq] at h
    subst h
    cases t with
    | nil => rfl
    | cons b s => simp at hl

/-- `move_figure` is driven by the position array alone: across two states
that differ only in set order it succeeds on the same inputs, and the
results again differ only in set order. -/
theorem move_figure_fields {b1 b2 : Game} (hp : b2.position = b1.position)
    (hb : b2.board = b1.board) (hc : b2.color = b1.color)
    (he : b2.en_passant = b1.en_passant) (hperm : b2.figures.Perm b1.figures)
    (f : Figure) (t : Coord) :
    (move_figure b2 f t).isSome = (move_figure b1 f t).isSome ∧
    ∀ a1, move_figure b1 f t = some a1 → ∃ a2, move_figure b2 f t = some a2 ∧
      a2.position = a1.position ∧ a2.board = a1.board ∧ a2.color = a1.color ∧
      a2.en_passant = a1.en_passant ∧ a2.figures.Perm a1.figures := by
  unfold move_figure
  simp only [bind, hp]
  cases h1 : posSet? b1.position t.idx (some (f.move_to t)) with
  | none =>
    simp only [Option.none_bind]
    exact ⟨trivial, fun a1 ha1 => absurd ha1 (by simp)⟩
  | some pos1 =>
    simp only [Option.some_bind]
    cases h2 : posSet? pos1 f.coord.idx none with
    | none =>
      simp only [Option.none_bind]
      exact ⟨trivial, fun a1 ha1 => absurd ha1 (by simp)⟩
    | some pos2 =>
      simp only [Option.some_bind, pure, Option.some.injEq]
      refine ⟨rfl, fun a1 ha1 => ⟨_, rfl, ?_⟩⟩
      rw [← ha1]
      exact ⟨rfl, hb, hc, he, ((hperm.insert _).erase _)⟩

/-- The per-candidate survival test only depends on the scratch state up to
set order. -/
theorem survB_congr {b1 b2 : Game} (hp : b2.position = b1.position)
    (hb : b2.board = b1.board) (hc : b2.color = b1.color)
    (he : b2.en_passant = b1.en_passant) (hperm : b2.figures.Perm b1.figures)
    (draw : Draw) (c : Color) (kc : Coord) (fig : Figure) :
    survB b2 draw c kc fig = survB b1 draw c kc fig := by
  obtain ⟨hiso, hsome⟩ := move_figure_fields hp hb hc he hperm fig draw.target
  unfold survB
  cases hmf : move_figure b1 fig draw.target with
  | none =>
    cases hmf2 : move_figure b2 fig draw.target with
    | none => rfl
    | some a2 =>
      exfalso
      rw [hmf, hmf2] at hiso
      simp at hiso
  | some a1 =>
    obtain ⟨a2, h2, hap, hab, hac, hae, haperm⟩ := hsome a1 hmf
    rw [h2]
    show decide ((a2.figures.filter (fun f =>
        decide (f.color ≠ c) && [Piece.R, Piece.B, Piece.Q].contains f.piece &&
          (get_moves f a2).contains kc)).length = 0) =
      decide ((a1.figures.filter (fun f =>
        decide (f.color ≠ c) && [Piece.R, Piece.B, Piece.Q].contains f.piece &&
          (get_moves f a1).contains kc)).length = 0)
    have hm : ∀ x, get_moves x a2 = get_moves x a1 :=
      fun x => (moveGen_congr hap hab hae x).1
    have hfun : (fun f => decide (f.color ≠ c) &&
          [Piece.R, Piece.B, Piece.Q].contains f.piece &&
          (get_moves f a2).contains kc) =
        (fun f => decide (f.color ≠ c) &&
          [Piece.R, Piece.B, Piece.Q].contains f.piece &&
          (get_moves f a1).contains kc) :=
      funext fun x => by rw [hm x]
    rw [hfun, (haperm.filter _).length_eq]

/-- A successful pin loop returns exactly the candidates passing the
survival test, and every candidate's simulation step succeeded. -/
theorem pinLoop_some {base : Game} {draw : Draw} {c : Color} {kc : Coord} :
    ∀ {L S : List Figure}, pinLoop base draw c kc L = some S →
      S = L.filter (survB base draw c kc) ∧
      ∀ f ∈ L, (move_figure base f draw.target).isSome := by
  intro L
  induction L with
  | nil =>
    intro S h
    simp only [pinLoop, pure, Option.some.injEq] at h
    exact ⟨h.symm, fun f hf => absurd hf (List.not_mem_nil f)⟩
  | cons x xs ih =>
    intro S h
    simp only [pinLoop, bind, Option.bind_eq_some, pure, Option.some.injEq] at h
    obtain ⟨alt, halt, tl, htl, hS⟩ := h
    obtain ⟨htl_eq, htl_all⟩ := ih htl
    have hsurv : survB base draw c kc x = decide ((alt.figures.filter (fun f =>
        decide (f.color ≠ c) && [Piece.R, Piece.B, Piece.Q].contains f.piece &&
          (get_moves f alt).contains kc)).length = 0) := by
      unfold survB
      rw [halt]
    constructor
    · rw [← hS, List.filter_cons, hsurv, htl_eq]
      by_cases hn : ((alt.figures.filter (fun f =>
          decide (f.color ≠ c) && [Piece.R, Piece.B, Piece.Q].contains f.piece &&
            (get_moves f alt).contains kc)).length = 0)
      · rw [if_pos hn, if_pos (decide_eq_true hn)]
      · rw [if_neg hn, if_neg (fun hd => hn (of_decide_eq_true hd))]
    · intro f hf
      rcases List.mem_cons.mp hf with rfl | hf'
      · rw [halt]
        rfl
      · exact htl_all f hf'

/-- When every candidate's simulation step succeeds, the pin loop succeeds
and returns the filtered candidates. -/
theorem pinLoop_of_all {base : Game} {draw : Draw} {c : Color} {kc : Coord} :
    ∀ {L : List Figure}, (∀ f ∈ L, (move_figure base f draw.target).isSome) →
      pinLoop base draw c kc L = some (L.filter (survB base draw c kc)) := by
  intro L
  induction L with
  | nil => intro h; rfl
  | cons x xs ih =>
    intro h
    have hx := h x (List.mem_cons_self x xs)
    rcases halt : move_figure base x draw.target with _ | alt
    · rw [halt] at hx
      simp at hx
    · have hsurv : survB base draw c kc x = decide ((alt.figures.filter (fun f =>
          decide (f.color ≠ c) && [Piece.R, Piece.B, Piece.Q].contains f.piece &&
            (get_moves f alt).contains kc)).length = 0) := by
        unfold survB
        rw [halt]
      simp only [pinLoop, bind, halt, Option.some_bind]
      rw [ih (fun f hf => h f (List.mem_cons_of_mem _ hf))]
      simp only [Option.some_bind, pure, Option.some.injEq]
      rw [List.filter_cons, hsurv]
      by_cases hn : ((alt.figures.filter (fun f =>
          decide (f.color ≠ c) && [Piece.R, Piece.B, Piece.Q].contains f.piece &&
            (get_moves f alt).contains kc)).length = 0)
      · rw [if_pos hn, if_pos (decide_eq_true hn)]
      · rw [if_neg hn, if_neg (fun hd => hn (of_decide_eq_true hd))]

theorem stage2list_perm {L1 L2 : List Figure} (h : L2.Perm L1) (d : Draw) :
    (stage2list L2 d).Perm (stage2list L1 d) := by
  unfold stage2list
  cases d.remainder_file <;> cases d.remainder_rank
  · exact h
  · exact h.filter _
  · exact h.filter _
  · exact h.filter _

theorem stage3list_perm {g1 g2 : Game} (hp : g2.position = g1.position)
    (hb : g2.board = g1.board) (he : g2.en_passant = g1.en_passant)
    {L1 L2 : List Figure} (hL : L2.Perm L1) (d : Draw) :
    (stage3list L2 d g2).Perm (stage3list L1 d g1) := by
  unfold stage3list
  by_cases hhit : d.is_hit = true
  · rw [if_pos hhit, if_pos hhit]
    have hfun : (fun f => (get_hits f g2).contains d.target) =
        (fun f => (get_hits f g1).contains d.target) :=
      funext fun f => by rw [(moveGen_congr hp hb he f).2]
    rw [hfun]
    exact hL.filter _
  · rw [if_neg hhit, if_neg hhit]
    have hfun : (fun f => (get_moves f g2).contains d.target) =
        (fun f => (get_moves f g1).contains d.target) :=
      funext fun f => by rw [(moveGen_congr hp hb he f).1]
    rw [hfun]
    exact hL.filter _

/-- A successful pin stage transfers to any reordering of the state's figure
set and of the candidate list, with a reordered survivor list. -/
theorem pinSurvivors_perm {g1 g2 : Game} (hp : g2.position = g1.position)
    (hb : g2.board = g1.board) (hc : g2.color = g1.color)
    (he : g2.en_passant = g1.en_passant) (hperm : g2.figures.Perm g1.figures)
    (hkn : KingUnique g1) {L1 L2 : List Figure} (hL : L2.Perm L1) (d : Draw)
    {S1 : List Figure} (h : pinSurvivors L1 d g1 = some S1) :
    ∃ S2, pinSurvivors L2 d g2 = some S2 ∧ S2.Perm S1 := by
  unfold pinSurvivors at h ⊢
  simp only [bind, Option.bind_eq_some] at h
  obtain ⟨kingF, hkf, base1, hbase1, hloop⟩ := h
  have hkf2 : find_king g2 g2.color = some kingF := by
    unfold find_king at hkf ⊢
    rw [hc]
    refine find?_perm_unique hperm ?_ hkf
    intro x hx y hy hpx hpy
    exact unique_of_filter_le_one hkn hx hy hpx hpy
  have hbase2 : ∃ base2, pinBase d g2 = some base2 ∧
      base2.position = base1.position ∧ base2.board = base1.board ∧
      base2.color = base1.color ∧ base2.en_passant = base1.en_passant ∧
      base2.figures.Perm base1.figures := by
    unfold pinBase at hbase1 ⊢
    by_cases hhit : d.is_hit = true
    · rw [if_pos hhit] at hbase1 ⊢
      simp only [bind, Option.bind_eq_some] at hbase1 ⊢
      obtain ⟨slot, hslot, tf, htf, hrem⟩ := hbase1
      simp only [remove_figure, bind, Option.bind_eq_some, pure,
        Option.some.injEq] at hrem
      obtain ⟨pos, hposset, hbeq⟩ := hrem
      refine ⟨{ g2 with figures := g2.figures.erase tf, position := pos },
        ⟨slot, by rw [hp]; exact hslot, tf, htf, ?_⟩, ?_⟩
      · simp only [remove_figure, bind, Option.bind_eq_some, pure,
          Option.some.injEq]
        exact ⟨pos, by rw [hp]; exact hposset, rfl⟩
      · rw [← hbeq]
        exact ⟨rfl, hb, hc, he, hperm.erase tf⟩
    · rw [if_neg hhit] at hbase1 ⊢
      simp only [pure, Option.some.injEq] at hbase1
      subst hbase1
      exact ⟨g2, rfl, hp, hb, hc, he, hperm⟩
  obtain ⟨base2, hb2, hbp, hbb, hbc, hbe, hbperm⟩ := hbase2
  obtain ⟨hSeq, hall⟩ := pinLoop_some hloop
  have hall2 : ∀ f ∈ L2, (move_figure base2 f d.target).isSome := by
    intro f hf
    rw [(move_figure_fields hbp hbb hbc hbe hbperm f d.target).1]
    exact hall f (hL.subset hf)
  simp only [bind, Option.bind_eq_some]
  refine ⟨L2.filter (survB base2 d g2.color kingF.coord),
    ⟨kingF, hkf2, base2, hb2,
      @pinLoop_of_all base2 d g2.color kingF.coord L2 hall2⟩, ?_⟩
  have hfun : survB base2 d g2.color kingF.coord =
      survB base1 d g1.color kingF.coord := by
    funext x
    rw [hc]
    exact survB_congr hbp hbb hbc hbe hbperm d g1.color kingF.coord x
  rw [hfun, hSeq]
  exact hL.filter _

theorem filter_on_moves_perm {g1 g2 : Game} (hp : g2.position = g1.position)
    (hb : g2.board = g1.board) (hc : g2.color = g1.color)
    (he : g2.en_passant = g1.en_passant) (hperm : g2.figures.Perm g1.figures)
    (hkn : KingUnique g1) {L1 L2 : List Figure} (hL : L2.Perm L1) (d : Draw)
    (huniq : ∀ l, pinSurvivors (stage3list L1 d g1) d g1 = some l →
      l.length ≤ 1)
    {m : Figure} (h : filter_on_moves L1 d g1 = some m) :
    filter_on_moves L2 d g2 = some m := by
  unfold filter_on_moves at h ⊢
  have hL3 : (stage3list L2 d g2).Perm (stage3list L1 d g1) :=
    stage3list_perm hp hb he hL d
  by_cases h3 : (stage3list L1 d g1).length = 1
  · rw [if_pos h3] at h
    have hsing := eq_singleton_of_length_one h3 h
    have h2 : stage3list L2 d g2 = [m] :=
      List.perm_singleton.mp (by rw [← hsing]; exact hL3)
    simp [h2]
  · rw [if_neg h3] at h
    rw [if_neg (by rw [hL3.length_eq]; exact h3)]
    unfold filter_on_pins at h ⊢
    simp only [bind, Option.bind_eq_some] at h
    obtain ⟨S1, hS1, hhead⟩ := h
    have hlen : S1.length = 1 := by
      have hle := huniq S1 hS1
      cases S1 with
      | nil => cases hhead
      | cons a t => simp only [List.length_cons] at hle ⊢; omega
    have hsing := eq_singleton_of_length_one hlen hhead
    obtain ⟨S2, hS2, hS2perm⟩ := pinSurvivors_perm hp hb hc he hperm hkn hL3 d hS1
    have hS2e : S2 = [m] :=
      List.perm_singleton.mp (by rw [← hsing]; exact hS2perm)
    simp only [bind, Option.bind_eq_some]
    exact ⟨S2, hS2, by rw [hS2e]; rfl⟩

theorem filter_on_remainder_perm {g1 g2 : Game} (hp : g2.position = g1.position)
    (hb : g2.board = g1.board) (hc : g2.color = g1.color)
    (he : g2.en_passant = g1.en_passant) (hperm : g2.figures.Perm g1.figures)
    (hkn : KingUnique g1) {L1 L2 : List Figure} (hL : L2.Perm L1) (d : Draw)
    (huniq : ∀ l, pinSurvivors (stage3list (stage2list L1 d) d g1) d g1 =
      some l → l.length ≤ 1)
    {m : Figure} (h : filter_on_remainder L1 d g1 = some m) :
    filter_on_remainder L2 d g2 = some m := by
  unfold filter_on_remainder at h ⊢
  have hL2 : (stage2list L2 d).Perm (stage2list L1 d) := stage2list_perm hL d
  by_cases hlen : (stage2list L1 d).length = 1
  · rw [if_pos hlen] at h
    have hsing := eq_singleton_of_length_one hlen h
    have h2 : stage2list L2 d = [m] :=
      List.perm_singleton.mp (by rw [← hsing]; exact hL2)
    simp [h2]
  · rw [if_neg hlen] at h
    rw [if_neg (by rw [hL2.length_eq]; exact hlen)]
    exact filter_on_moves_perm hp hb hc he hperm hkn hL2 d huniq h

/-- Under a unique king and a uniquely resolving pin stage, the cascade
selects the same mover whatever the iteration order of the figure set. -/
theorem filter_mover_perm {g1 g2 : Game} (hp : g2.position = g1.position)
    (hb : g2.board = g1.board) (hc : g2.color = g1.color)
    (he : g2.en_passant = g1.en_passant) (hperm : g2.figures.Perm g1.figures)
    (hkn : KingUnique g1) (d : Draw)
    (huniq : ∀ l, pinSurvivors
      (stage3list (stage2list (stage1list d g1) d) d g1) d g1 = some l →
      l.length ≤ 1)
    {m : Figure} (h : filter_mover d g1 = some m) :
    filter_mover d g2 = some m := by
  unfold filter_mover at h ⊢
  have hL1 : (stage1list d g2).Perm (stage1list d g1) := by
    unfold stage1list
    rw [hc]
    exact hperm.filter _
  by_cases hlen : (stage1list d g1).length = 1
  · rw [if_pos hlen] at h
    have hsing := eq_singleton_of_length_one hlen h
    have h2 : stage1list d g2 = [m] :=
      List.perm_singleton.mp (by rw [← hsing]; exact hL1)
    simp [h2]
  · rw [if_neg hlen] at h
    rw [if_neg (by rw [hL1.length_eq]; exact hlen)]
    exact filter_on_remainder_perm hp hb hc he hperm hkn hL1 d huniq h

/-- The capture block picks the same victim across set orders: the victim is
looked up by its square, and a well-formed state holds at most one figure
per square. -/
theorem hitPhase_perm {g1 g2 : Game} (hlen : g1.position.length = 64)
    (hpc : posCoordsOK g1.position) (hsync : Sync g1)
    (hc : g2.color = g1.color) (he : g2.en_passant = g1.en_passant)
    (d : Draw) (m : Figure) (pos1 : List (Option Figure))
    {figsA figsB : List Figure} (hAB : figsB.Perm figsA)
    (hsubA : figsA ⊆ g1.figures)
    {out1 : List (Option Figure) × List Figure}
    (h : hitPhase g1 d m pos1 figsA = some out1) :
    ∃ out2, hitPhase g2 d m pos1 figsB = some out2 ∧
      out2.1 = out1.1 ∧ out2.2.Perm out1.2 := by
  unfold hitPhase at h ⊢
  by_cases hhit : d.is_hit = true
  · rw [if_pos hhit] at h ⊢
    have hepc : epHitCond g2 d m = epHitCond g1 d m := by
      unfold epHitCond
      rw [he]
    rw [hepc]
    by_cases hec : epHitCond g1 d m = true
    · rw [if_pos hec] at h ⊢
      simp only [bind, Option.bind_eq_some, pure, Option.some.injEq] at h ⊢
      obtain ⟨epFig, hfind, pos2, hset, hout⟩ := h
      have hpred : (fun (f : Figure) => decide (f.color = g2.color.next ∧
          f.coord.x = d.target.x ∧
          f.coord.y = d.target.y + g2.color.next.factor)) =
          (fun (f : Figure) => decide (f.color = g1.color.next ∧
          f.coord.x = d.target.x ∧
          f.coord.y = d.target.y + g1.color.next.factor)) := by
        rw [hc]
      rw [hpred]
      refine ⟨(pos2, figsB.erase epFig), ⟨epFig, ?_, pos2, hset, rfl⟩, ?_, ?_⟩
      · refine find?_perm_unique hAB ?_ hfind
        intro x hx y hy hpx hpy
        simp only [decide_eq_true_eq] at hpx hpy
        exact figures_coord_inj hlen hpc hsync (hsubA hx) (hsubA hy)
          (by rw [hpx.2.1, hpy.2.1]) (by rw [hpx.2.2, hpy.2.2])
      · rw [← hout]
      · rw [← hout]
        exact hAB.erase epFig
    · rw [if_neg hec] at h ⊢
      simp only [bind, Option.bind_eq_some, pure, Option.some.injEq] at h ⊢
      obtain ⟨hitFig, hfind, pos2, hset, hout⟩ := h
      refine ⟨(pos2, figsB.erase hitFig), ⟨hitFig, ?_, pos2, hset, rfl⟩, ?_, ?_⟩
      · refine find?_perm_unique hAB ?_ hfind
        intro x hx y hy hpx hpy
        simp only [decide_eq_true_eq] at hpx hpy
        exact figures_coord_inj hlen hpc hsync (hsubA hx) (hsubA hy)
          (by rw [hpx, hpy]) (by rw [hpx, hpy])
      · rw [← hout]
      · rw [← hout]
        exact hAB.erase hitFig
  · rw [if_neg hhit] at h ⊢
    simp only [pure, Option.some.injEq] at h
    exact ⟨(pos1, figsB), rfl, by rw [← h], by rw [← h]; exact hAB⟩

/-- The placement block is blind to set order. -/
theorem placePhase_perm {g1 g2 : Game} (hc : g2.color = g1.color)
    (d : Draw) (m : Figure) (pos2 : List (Option Figure))
    {figsA figsB : List Figure} (hAB : figsB.Perm figsA)
    {out1 : List (Option Figure) × List Figure}
    (h : placePhase g1 d m pos2 figsA = some out1) :
    ∃ out2, placePhase g2 d m pos2 figsB = some out2 ∧
      out2.1 = out1.1 ∧ out2.2.Perm out1.2 := by
  unfold placePhase at h ⊢
  by_cases hpr : d.is_promo = true
  · rw [if_pos hpr] at h ⊢
    rw [hc]
    simp only [bind, Option.bind_eq_some, pure, Option.some.injEq] at h ⊢
    obtain ⟨pp, hpp, pos3, hset, hout⟩ := h
    refine ⟨(pos3, List.insert ⟨g1.color, d.target, pp⟩ figsB),
      ⟨pp, hpp, pos3, hset, rfl⟩, ?_, ?_⟩
    · rw [← hout]
    · rw [← hout]
      exact hAB.insert _
  · rw [if_neg hpr] at h ⊢
    simp only [bind, Option.bind_eq_some, pure, Option.some.injEq] at h ⊢
    obtain ⟨pos3, hset, hout⟩ := h
    refine ⟨(pos3, List.insert (m.move_to d.target) figsB),
      ⟨pos3, hset, rfl⟩, ?_, ?_⟩
    · rw [← hout]
    · rw [← hout]
      exact hAB.insert _

/-- The en-passant recomputation only asks whether the adjacent-enemy-pawn
candidate list is empty, which is order-blind. -/
theorem epPhase_perm {g1 g2 : Game} (hbd : g2.board = g1.board)
    (hc : g2.color = g1.color) (d : Draw) (m : Figure)
    {figsA figsB : List Figure} (hAB : figsB.Perm figsA)
    {ep1 : Option Coord} (h : epPhase g1 d m figsA = some ep1) :
    epPhase g2 d m figsB = some ep1 := by
  unfold epPhase at h ⊢
  rw [hbd, hc]
  by_cases hcond : (decide (m.piece = Piece.P) &&
      decide ((m.coord.y - d.target.y).natAbs = 2)) = true
  · rw [if_pos hcond] at h ⊢
    simp only [bind, Option.bind_eq_some, pure, Option.some.injEq] at h ⊢
    obtain ⟨epc, hbg, hout⟩ := h
    refine ⟨epc, hbg, ?_⟩
    rw [perm_isEmpty (hAB.filter (fun (f : Figure) =>
      decide (f.color = g1.color.next ∧
      f.piece = Piece.P ∧ f.coord.y = d.target.y ∧
      (f.coord.x - d.target.x).natAbs = 1)))]
    exact hout
  · rw [if_neg hcond] at h ⊢
    exact h

/-- The ordinary-move branch of `play_move` is insensitive to the set's
iteration order whenever the cascade resolves uniquely: the two results
again agree everywhere but in set order. -/
theorem playNormal_perm {g1 g2 : Game} (hgs : GoodState g1)
    (hfp : FigsPerm g1 g2) (d : Draw) (hkn : KingUnique g1)
    (huniq : ∀ l, pinSurvivors
      (stage3list (stage2list (stage1list d g1) d) d g1) d g1 = some l →
      l.length ≤ 1)
    {g1' : Game} (h : playNormal g1 d = some g1') :
    ∃ g2', playNormal g2 d = some g2' ∧ FigsPerm g1' g2' := by
  obtain ⟨hbg, hpg, hcg, hcas, heg, hhm, hfm, hug, hperm⟩ := hfp
  obtain ⟨hb1, hlen, hpc, hsync⟩ := hgs
  unfold playNormal at h ⊢
  simp only [bind, Option.bind_eq_some, pure, Option.some.injEq] at h ⊢
  obtain ⟨m, hm, pos1, hpos1, hit1, hhit1, placed1, hplaced1, ep1, hep1,
    hout⟩ := h
  have hm2 := filter_mover_perm hpg hbg hcg heg hperm hkn d huniq hm
  obtain ⟨hit2, hhit2, hhit2pos, hhit2perm⟩ :=
    hitPhase_perm hlen hpc hsync hcg heg d m pos1 (hperm.erase m)
      (fun x hx => List.mem_of_mem_erase hx) hhit1
  obtain ⟨placed2, hplaced2, hplaced2pos, hplaced2perm⟩ :=
    placePhase_perm hcg d m hit1.1 hhit2perm hplaced1
  rw [← hhit2pos] at hplaced2
  have hep2 := epPhase_perm hbg hcg d m hplaced2perm hep1
  refine ⟨_, ⟨m, hm2, pos1, by rw [hpg]; exact hpos1, hit2, hhit2, placed2,
    hplaced2, ep1, hep2, rfl⟩, ?_⟩
  rw [← hout]
  exact ⟨hbg, hplaced2pos, by rw [hcg], hcas, rfl, by rw [hhm],
    by rw [hcg, hfm], rfl, hplaced2perm⟩

/-- The castling branch of `play_move` reads its two movers off the array,
so it is insensitive to the set's iteration order outright. -/
theorem castle_perm {g1 g2 : Game} (hfp : FigsPerm g1 g2) (q : Bool)
    {g1' : Game} (h : castle g1 q = some g1') :
    ∃ g2', castle g2 q = some g2' ∧ FigsPerm g1' g2' := by
  obtain ⟨hbg, hpg, hcg, hcas, heg, hhm, hfm, hug, hperm⟩ := hfp
  unfold castle at h ⊢
  simp only [hpg, hbg, hcg]
  simp only [bind, Option.bind_eq_some, pure, Option.some.injEq] at h ⊢
  obtain ⟨ks, hks, king, hking, rs, hrs, rook, hrook, ktc, hktc, rtc, hrtc,
    p1, hp1, p2, hp2, p3, hp3, p4, hp4, hout⟩ := h
  refine ⟨_, ⟨ks, hks, king, hking, rs, hrs, rook, hrook, ktc, hktc, rtc,
    hrtc, p1, hp1, p2, hp2, p3, hp3, p4, hp4, rfl⟩, ?_⟩
  rw [← hout]
  exact ⟨rfl, rfl, rfl, hcas, heg, by rw [hhm], by rw [hfm], rfl,
    (((hperm.erase king).erase rook).insert _).insert _⟩

/-- C8 (amended): runs over the same tokens agree up to the figure set's
iteration order provided every token resolves uniquely. Precisely: from two
well-formed states equal in every field except the set order, a successful
`play_move` — castling outright, an ordinary token when the side to move has
one king and the pin stage of the cascade leaves at most one survivor —
succeeds on both, yields states again equal up to set order, and renders the
same position string. The unamended per-ply determinism claim fails: an
ambiguous token moves whichever survivor the set yields first (see the
counterexample). -/
theorem C8_amended_unique_resolution (g1 g2 : Game) (t : Token) (g1' : Game)
    (hgs : GoodState g1) (hkn : KingUnique g1) (hfp : FigsPerm g1 g2)
    (huniq : ∀ d, t = Token.normal d → ∀ l, pinSurvivors
      (stage3list (stage2list (stage1list d g1) d) d g1) d g1 = some l →
      l.length ≤ 1)
    (hplay : play_move g1 t = some g1') :
    ∃ g2', play_move g2 t = some g2' ∧ FigsPerm g1' g2' ∧
      to_fen g2' = to_fen g1' := by
  have hfen : ∀ {a b : Game}, FigsPerm a b → to_fen b = to_fen a := by
    intro a b hab
    obtain ⟨hb, hp, hc, hca, he, hh, hf, -, -⟩ := hab
    unfold to_fen to_fen_list
    rw [hp, hc, hca, he, hh, hf]
  cases t with
  | castleTok q =>
    obtain ⟨g2', h2, hfp'⟩ := castle_perm hfp q hplay
    exact ⟨g2', h2, hfp', hfen hfp'⟩
  | normal d =>
    obtain ⟨g2', h2, hfp'⟩ := playNormal_perm hgs hfp d hkn (huniq d rfl) hplay
    exact ⟨g2', h2, hfp', hfen hfp'⟩

/-- C8 witness: "e4" out of `c5game`, replayed with the figure set in
reversed iteration order, reaches a state rendering the same position
string. -/
theorem C8_amended_witness :
    ∃ g2', play_move c8uniq
        (Token.normal (drawPlain .P 'e' '4' false none none)) = some g2' ∧
      FigsPerm c5mid g2' ∧ to_fen g2' = to_fen c5mid := by
  refine C8_amended_unique_resolution c5game c8uniq
    (Token.normal (drawPlain .P 'e' '4' false none none)) c5mid
    (by decide) (by decide) (by decide) ?_ (by decide)
  intro d hd l hl
  cases hd
  rw [show pinSurvivors (stage3list (stage2list (stage1list
      (drawPlain .P 'e' '4' false none none) c5game)
      (drawPlain .P 'e' '4' false none none))
      (drawPlain .P 'e' '4' false none none) c5game)
      (drawPlain .P 'e' '4' false none none) c5game =
      some [figureOfChars 'P' 'e' '2'] from by decide] at hl
  cases hl
  decide

theorem digitChar_isDigit (m : Nat) (hm : m < 10) :
    (Char.ofNat (48 + m)).isDigit = true := by
  interval_cases m <;> decide

theorem digitChar_toNat (m : Nat) (hm : m < 10) :
    (Char.ofNat (48 + m)).toNat = 48 + m := by
  interval_cases m <;> decide

theorem digitChar_ne_space (m : Nat) (hm : m < 10) :
    Char.ofNat (48 + m) ≠ ' ' := by
  interval_cases m <;> decide

/-- The decimal rendering is a nonempty digit string. -/
theorem natRender_digits (n : Nat) :
    (natRender n).all (fun c => c.isDigit) = true ∧ natRender n ≠ [] := by
  induction n using Nat.strong_induction_on with
  | _ n ih =>
    by_cases h : n < 10
    · rw [natRender.eq_def, dif_pos h]
      exact ⟨by simp [digitChar_isDigit n h], by simp⟩
    · rw [natRender.eq_def, dif_neg h]
      have ihh := ih (n / 10) (Nat.div_lt_self (by omega) (by omega))
      constructor
      · rw [List.all_append, ihh.1]
        simp only [Bool.true_and, List.all_cons, List.all_nil, Bool.and_true]
        exact digitChar_isDigit (n % 10) (Nat.mod_lt _ (by omega))
      · simp

/-- The decimal digit fold recomposes the rendered value. -/
theorem natRender_foldl (n : Nat) : ∀ acc : Nat,
    (natRender n).foldl (fun a c => a * 10 + (c.toNat - 48)) acc =
      acc * 10 ^ (natRender n).length + n := by
  induction n using Nat.strong_induction_on with
  | _ n ih =>
    intro acc
    by_cases h : n < 10
    · rw [natRender.eq_def, dif_pos h]
      simp only [List.foldl_cons, List.foldl_nil, List.length_cons,
        List.length_nil, pow_succ, pow_zero, one_mul]
      rw [digitChar_toNat n h]
      omega
    · rw [natRender.eq_def, dif_neg h]
      rw [List.foldl_append, List.length_append]
      rw [ih (n / 10) (Nat.div_lt_self (by omega) (by omega)) acc]
      simp only [List.foldl_cons, List.foldl_nil, List.length_cons,
        List.length_nil]
      rw [digitChar_toNat (n % 10) (Nat.mod_lt _ (by omega))]
      have hsub : 48 + n % 10 - 48 = n % 10 := by omega
      rw [hsub]
      have hpow : 10 ^ ((natRender (n / 10)).length + (0 + 1)) =
          10 ^ (natRender (n / 10)).length * 10 := by
        rw [pow_succ]
      rw [hpow]
      have hmod : n / 10 * 10 + n % 10 = n := by omega
      ring_nf
      omega

/-- `str::parse::<u16>` undoes `to_string` for values in range. -/
theorem parseU16_natRender (n : Nat) (h : n < 65536) :
    parseU16 (natRender n) = some n := by
  obtain ⟨hdig, hne⟩ := natRender_digits n
  have hstrip : (match natRender n with
      | '+' :: rest => rest
      | _ => natRender n) = natRender n := by
    cases hnr : natRender n with
    | nil => rfl
    | cons c cs =>
      have hc : c.isDigit = true := by
        rw [hnr] at hdig
        simp only [List.all_cons, Bool.and_eq_true] at hdig
        exact hdig.1
      split
      · rename_i rest heq
        rw [List.cons.injEq] at heq
        rw [heq.1] at hc
        exact absurd hc (by decide)
      · rfl
  simp only [parseU16]
  rw [hstrip, if_neg hne, if_pos hdig, natRender_foldl n 0]
  rw [if_pos (by simpa using h)]
  simp

theorem splitSpace_no_space : ∀ (s cur : List Char), (∀ c ∈ s, c ≠ ' ') →
    splitSpace s cur = [cur.reverse ++ s] := by
  intro s
  induction s with
  | nil =>
    intro cur h
    simp [splitSpace]
  | cons c rest ih =>
    intro cur h
    have hc : c ≠ ' ' := h c (List.mem_cons_self c rest)
    simp only [splitSpace, if_neg hc]
    rw [ih (c :: cur) (fun x hx => h x (List.mem_cons_of_mem _ hx))]
    simp

theorem splitSpace_append : ∀ (a t cur : List Char), (∀ c ∈ a, c ≠ ' ') →
    splitSpace (a ++ ' ' :: t) cur = (cur.reverse ++ a) :: splitSpace t [] := by
  intro a
  induction a with
  | nil =>
    intro t cur h
    simp only [List.nil_append, splitSpace, if_pos rfl]
    simp
  | cons c rest ih =>
    intro t cur h
    have hc : c ≠ ' ' := h c (List.mem_cons_self c rest)
    simp only [List.cons_append, splitSpace, if_neg hc, List.append_eq]
    rw [ih t (c :: cur) (fun x hx => h x (List.mem_cons_of_mem _ hx))]
    simp

/-- Splitting on spaces undoes the six-field join when no field contains a
space. -/
theorem splitSpace_six {f0 f1 f2 f3 f4 f5 : List Char}
    (h0 : ∀ c ∈ f0, c ≠ ' ') (h1 : ∀ c ∈ f1, c ≠ ' ')
    (h2 : ∀ c ∈ f2, c ≠ ' ') (h3 : ∀ c ∈ f3, c ≠ ' ')
    (h4 : ∀ c ∈ f4, c ≠ ' ') (h5 : ∀ c ∈ f5, c ≠ ' ') :
    splitSpace (joinSpace [f0, f1, f2, f3, f4, f5]) [] =
      [f0, f1, f2, f3, f4, f5] := by
  show splitSpace (f0 ++ ' ' :: (f1 ++ ' ' :: (f2 ++ ' ' :: (f3 ++ ' ' ::
    (f4 ++ ' ' :: f5))))) [] = _
  rw [splitSpace_append _ _ _ h0, splitSpace_append _ _ _ h1,
    splitSpace_append _ _ _ h2, splitSpace_append _ _ _ h3,
    splitSpace_append _ _ _ h4, splitSpace_no_space _ _ h5]
  simp

theorem fig_to_char_facts (f : Figure) :
    f.to_char ≠ ' ' ∧ f.to_char ≠ '/' ∧ f.to_char.isDigit = false := by
  unfold Figure.to_char
  cases f.piece <;> cases f.color <;> decide

theorem fig_char_rt (f : Figure) :
    ((if f.to_char.isLower then Color.B else Color.W) = f.color) ∧
    Piece.from_char f.to_char = f.piece := by
  unfold Figure.to_char
  cases f.piece <;> cases f.color <;> decide

theorem castling_rt (c : Castling) :
    Castling.from_chars (Castling.render c) = c ∧
    ∀ x ∈ Castling.render c, x ≠ ' ' := by
  rcases c with ⟨a, b, c2, d⟩
  cases a <;> cases b <;> cases c2 <;> cases d <;> decide

theorem coord_render_rt : ∀ c ∈ mkBoard,
    coordFromStr (coordRender c) = some c ∧
    ∀ x ∈ coordRender c, x ≠ ' ' := by
  decide

theorem color_render_rt (c : Color) :
    (Color.render c).get? 0 = some (if c = Color.W then 'w' else 'b') ∧
    Color.from_char (if c = Color.W then 'w' else 'b') = some c ∧
    ∀ x ∈ Color.render c, x ≠ ' ' := by
  cases c <;> decide

theorem natRender_no_space (n : Nat) : ∀ c ∈ natRender n, c ≠ ' ' := by
  intro c hc hsp
  have hall := (natRender_digits n).1
  rw [List.all_eq_true] at hall
  have hcd := hall c hc
  rw [hsp] at hcd
  exact absurd hcd (by decide)

theorem unload_mem_ne_space {s : Nat} (hs : s ≤ 9) :
    ∀ c ∈ unloadChars s, c ≠ ' ' := by
  intro c hc
  unfold unloadChars at hc
  split at hc
  · simp only [List.mem_singleton] at hc
    rw [hc]
    exact digitChar_ne_space s (by omega)
  · cases hc

theorem ptfAux_some_sep (fig : Figure) (rest : List (Option Figure))
    (k s : Nat) (hk : k ≠ 0 ∧ k % 8 = 0) :
    ptfAux (some fig :: rest) k s =
      unloadChars s ++ '/' :: fig.to_char :: ptfAux rest (k + 1) 0 := by
  simp only [ptfAux, decide_eq_true hk]
  simp [unloadChars]

theorem ptfAux_some_nosep (fig : Figure) (rest : List (Option Figure))
    (k s : Nat) (hk : ¬(k ≠ 0 ∧ k % 8 = 0)) :
    ptfAux (some fig :: rest) k s =
      unloadChars s ++ fig.to_char :: ptfAux rest (k + 1) 0 := by
  simp only [ptfAux, decide_eq_false hk]
  simp

theorem ptfAux_none_sep (rest : List (Option Figure)) (k s : Nat)
    (hk : k ≠ 0 ∧ k % 8 = 0) :
    ptfAux (none :: rest) k s =
      unloadChars s ++ '/' :: ptfAux rest (k + 1) 1 := by
  simp only [ptfAux, decide_eq_true hk]
  simp

theorem ptfAux_none_nosep (rest : List (Option Figure)) (k s : Nat)
    (hk : ¬(k ≠ 0 ∧ k % 8 = 0)) :
    ptfAux (none :: rest) k s = ptfAux rest (k + 1) (s + 1) := by
  simp only [ptfAux, decide_eq_false hk]
  simp

/-- No space ever appears in the rendered placement field. -/
theorem ptfAux_no_space : ∀ (rest : List (Option Figure)) (k s : Nat),
    s ≤ 8 → (k = 0 → s = 0) → (k % 8 ≠ 0 → s ≤ k % 8) →
    ∀ c ∈ ptfAux rest k s, c ≠ ' ' := by
  intro rest
  induction rest with
  | nil =>
    intro k s h8 h0 hm c hc
    simp only [ptfAux] at hc
    exact unload_mem_ne_space (by omega) c hc
  | cons o rest ih =>
    intro k s h8 h0 hm c hc
    by_cases hsep : (k ≠ 0 ∧ k % 8 = 0)
    · rcases o with _ | fig
      · rw [ptfAux_none_sep rest k s hsep] at hc
        rcases List.mem_append.mp hc with hx | hx
        · exact unload_mem_ne_space (by omega) c hx
        · rcases List.mem_cons.mp hx with rfl | hx2
          · decide
          · exact ih (k + 1) 1 (by omega) (by omega) (by omega) c hx2
      · rw [ptfAux_some_sep fig rest k s hsep] at hc
        rcases List.mem_append.mp hc with hx | hx
        · exact unload_mem_ne_space (by omega) c hx
        · rcases List.mem_cons.mp hx with rfl | hx2
          · decide
          · rcases List.mem_cons.mp hx2 with rfl | hx3
            · exact (fig_to_char_facts fig).1
            · exact ih (k + 1) 0 (by omega) (by omega) (by omega) c hx3
    · rcases o with _ | fig
      · rw [ptfAux_none_nosep rest k s hsep] at hc
        exact ih (k + 1) (s + 1) (by omega) (by omega) (by omega) c hc
      · rw [ptfAux_some_nosep fig rest k s hsep] at hc
        rcases List.mem_append.mp hc with hx | hx
        · exact unload_mem_ne_space (by omega) c hx
        · rcases List.mem_cons.mp hx with rfl | hx2
          · exact (fig_to_char_facts fig).1
          · exact ih (k + 1) 0 (by omega) (by omega) (by omega) c hx2

theorem ftpGo_append (b : List Coord) : ∀ (xs ys : List Char) (i : Nat)
    (arr : List (Option Figure)),
    ftpGo b (xs ++ ys) i arr =
      (ftpGo b xs i arr).bind (fun p => ftpGo b ys p.1 p.2) := by
  intro xs
  induction xs with
  | nil =>
    intro ys i arr
    simp only [List.nil_append, ftpGo, Option.some_bind]
  | cons ch rest ih =>
    intro ys i arr
    simp only [List.cons_append, ftpGo, List.append_eq]
    by_cases hd : ch.isDigit = true
    · rw [if_pos hd, if_pos hd, ih]
    · rw [if_neg hd, if_neg hd]
      by_cases hs : ch = '/'
      · rw [if_pos hs, if_pos hs, ih]
      · rw [if_neg hs, if_neg hs]
        cases hbg : boardGet? b (i : Int) with
        | none => simp only [bind, Option.none_bind]
        | some co =>
          simp only [bind, Option.some_bind]
          cases hls : listSet? arr i (some ⟨if ch.isLower then .B else .W, co,
              Piece.from_char ch⟩) with
          | none => simp only [Option.none_bind]
          | some arr1 =>
            simp only [Option.some_bind]
            exact ih ys (i + 1) arr1

theorem ftpGo_slash (b : List Coord) (rest : List Char) (i : Nat)
    (arr : List (Option Figure)) :
    ftpGo b ('/' :: rest) i arr = ftpGo b rest i arr := by
  simp only [ftpGo]
  rw [if_neg (by decide), if_true]

theorem ftpGo_unload (b : List Coord) (s i : Nat) (hs : s ≤ 9)
    (arr : List (Option Figure)) :
    ftpGo b (unloadChars s) i arr = some (i + s, arr) := by
  rcases Nat.eq_zero_or_pos s with rfl | hpos
  · rw [show unloadChars 0 = [] from rfl]
    simp [ftpGo]
  · unfold unloadChars
    rw [if_pos hpos]
    have hd : (Char.ofNat (48 + s)).isDigit = true :=
      digitChar_isDigit s (by omega)
    simp only [ftpGo, if_pos hd, digitChar_toNat s (by omega)]
    have h48 : 48 + s - 48 = s := by omega
    rw [h48]

theorem boardGet?_mkBoard_eval (i : Nat) (hi : i < 64) :
    boardGet? mkBoard (i : Int) = some (coordOfIdx i) := by
  unfold boardGet?
  rw [if_neg (by omega)]
  rw [show ((i : Int)).toNat = i from by omega]
  rw [List.get?_eq_getElem?]
  unfold mkBoard
  rw [List.getElem?_map, List.getElem?_range hi]
  rfl

theorem ftpGo_fig (fig : Figure) (rest : List Char) (i : Nat) (hi : i < 64)
    (arr : List (Option Figure)) (hlen : arr.length = 64)
    (hco : fig.coord = coordOfIdx i) :
    ftpGo mkBoard (fig.to_char :: rest) i arr =
      ftpGo mkBoard rest (i + 1) (arr.set i (some fig)) := by
  obtain ⟨hsp, hsl, hdig⟩ := fig_to_char_facts fig
  obtain ⟨hcol, hpc⟩ := fig_char_rt fig
  simp only [ftpGo]
  rw [if_neg (by rw [hdig]; simp), if_neg hsl]
  rw [boardGet?_mkBoard_eval i hi]
  simp only [bind, Option.some_bind]
  unfold listSet?
  rw [if_pos (by omega)]
  simp only [Option.some_bind]
  have hfig : (⟨if fig.to_char.isLower then Color.B else Color.W, coordOfIdx i,
      Piece.from_char fig.to_char⟩ : Figure) = fig := by
    rw [hcol, hpc, ← hco]
  rw [hfig]

/-- The renderer/decoder loop invariant: decoding the rendered tail from the
pending-run position writes exactly the tail's occupants on top of an array
blank from the current index on. -/
theorem ptf_ftp : ∀ (rest : List (Option Figure)) (k s : Nat)
    (arr : List (Option Figure)),
    arr.length = 64 → k + rest.length = 64 →
    s ≤ 8 → (k = 0 → s = 0) → (k % 8 ≠ 0 → s ≤ k % 8) → s ≤ k →
    (∀ j, j < rest.length → slotCoordB (rest.getD j none) (k + j) = true) →
    (∀ j, k ≤ j → j < 64 → arr.getD j none = none) →
    ∃ arr', ftpGo mkBoard (ptfAux rest k s) (k - s) arr = some (64, arr') ∧
      arr'.length = 64 ∧
      (∀ j, j < 64 → arr'.getD j none =
        if j < k then arr.getD j none else rest.getD (j - k) none) := by
  intro rest
  induction rest with
  | nil =>
    intro k s arr hlen hk h8 h0 hm hsk hslots hnone
    simp only [ptfAux]
    have hk64 : k = 64 := by simpa using hk
    refine ⟨arr, ?_, hlen, ?_⟩
    · rw [ftpGo_unload mkBoard s (k - s) (by omega) arr]
      have : k - s + s = 64 := by omega
      rw [this]
    · intro j hj
      rw [if_pos (by omega)]
  | cons o rest ih =>
    intro k s arr hlen hk h8 h0 hm hsk hslots hnone
    have hk64 : k < 64 := by simp at hk; omega
    have hslot0 := hslots 0 (by simp)
    have hshift : ∀ j, j < rest.length →
        slotCoordB (rest.getD j none) (k + 1 + j) = true := by
      intro j hj
      have := hslots (j + 1) (by simp only [List.length_cons]; omega)
      rw [show k + (j + 1) = k + 1 + j from by omega] at this
      simpa using this
    have hk1 : k + 1 + rest.length = 64 := by simp at hk; omega
    rcases o with _ | fig
    · -- empty slot: the pending run grows (with a flush at rank starts)
      have harr2 : ∀ j, k + 1 ≤ j → j < 64 → arr.getD j none = none :=
        fun j h1 h2 => hnone j (by omega) h2
      by_cases hsep : (k ≠ 0 ∧ k % 8 = 0)
      · rw [ptfAux_none_sep rest k s hsep]
        rw [ftpGo_append]
        rw [ftpGo_unload mkBoard s (k - s) (by omega) arr]
        simp only [Option.some_bind]
        have hks : k - s + s = k := by omega
        rw [hks, ftpGo_slash]
        obtain ⟨arr', hrun, hlen', hagree⟩ := ih (k + 1) 1 arr hlen hk1
          (by omega) (by omega) (by omega) (by omega) hshift harr2
        simp only [Nat.add_sub_cancel] at hrun
        refine ⟨arr', hrun, hlen', ?_⟩
        intro j hj
        have h2 := hagree j hj
        by_cases hjk : j < k
        · rw [if_pos (by omega)] at h2
          rw [if_pos hjk, h2]
        · rw [if_neg hjk]
          by_cases hje : j = k
          · subst hje
            rw [if_pos (by omega)] at h2
            rw [h2, hnone j (by omega) hj]
            simp
          · rw [if_neg (by omega)] at h2
            rw [h2]
            have hjk1 : j - k = (j - (k + 1)) + 1 := by omega
            rw [hjk1]
            simp
      · rw [ptfAux_none_nosep rest k s hsep]
        obtain ⟨arr', hrun, hlen', hagree⟩ := ih (k + 1) (s + 1) arr hlen hk1
          (by omega) (by omega) (by omega) (by omega) hshift harr2
        rw [Nat.succ_sub_succ] at hrun
        refine ⟨arr', hrun, hlen', ?_⟩
        intro j hj
        have h2 := hagree j hj
        by_cases hjk : j < k
        · rw [if_pos (by omega)] at h2
          rw [if_pos hjk, h2]
        · rw [if_neg hjk]
          by_cases hje : j = k
          · subst hje
            rw [if_pos (by omega)] at h2
            rw [h2, hnone j (by omega) hj]
            simp
          · rw [if_neg (by omega)] at h2
            rw [h2]
            have hjk1 : j - k = (j - (k + 1)) + 1 := by omega
            rw [hjk1]
            simp
    · -- occupied slot: flush the run, emit the figure letter
      have hcoeq : fig.coord = coordOfIdx k := by
        simp only [slotCoordB, List.getD_cons_zero, Option.all_some,
          decide_eq_true_eq, Nat.add_zero] at hslot0
        exact hslot0
      have harr2 : ∀ j, k + 1 ≤ j → j < 64 →
          (arr.set k (some fig)).getD j none = none := by
        intro j h1 h2
        rw [getD_set_ne _ (by omega)]
        exact hnone j (by omega) h2
      have hlen2 : (arr.set k (some fig)).length = 64 := by simp [hlen]
      have hcommon : ∀ arr' : List (Option Figure), arr'.length = 64 →
          (∀ j, j < 64 → arr'.getD j none =
            if j < k + 1 then (arr.set k (some fig)).getD j none
            else rest.getD (j - (k + 1)) none) →
          (∀ j, j < 64 → arr'.getD j none =
            if j < k then arr.getD j none
            else (some fig :: rest).getD (j - k) none) := by
        intro arr' hlen' hagree j hj
        have h2 := hagree j hj
        by_cases hjk : j < k
        · rw [if_pos (by omega)] at h2
          rw [getD_set_ne _ (by omega)] at h2
          rw [if_pos hjk, h2]
        · rw [if_neg hjk]
          by_cases hje : j = k
          · subst hje
            rw [if_pos (by omega)] at h2
            rw [getD_set_self _ (by omega)] at h2
            rw [h2]
            simp
          · rw [if_neg (by omega)] at h2
            rw [h2]
            have hjk1 : j - k = (j - (k + 1)) + 1 := by omega
            rw [hjk1]
            simp
      by_cases hsep : (k ≠ 0 ∧ k % 8 = 0)
      · rw [ptfAux_some_sep fig rest k s hsep]
        rw [ftpGo_append]
        rw [ftpGo_unload mkBoard s (k - s) (by omega) arr]
        simp only [Option.some_bind]
        have hks : k - s + s = k := by omega
        rw [hks, ftpGo_slash]
        rw [ftpGo_fig fig _ k hk64 arr hlen hcoeq]
        obtain ⟨arr', hrun, hlen', hagree⟩ := ih (k + 1) 0 (arr.set k (some fig))
          hlen2 hk1 (by omega) (by omega) (by omega) (by omega) hshift harr2
        simp only [Nat.sub_zero] at hrun
        exact ⟨arr', hrun, hlen', hcommon arr' hlen' hagree⟩
      · rw [ptfAux_some_nosep fig rest k s hsep]
        rw [ftpGo_append]
        rw [ftpGo_unload mkBoard s (k - s) (by omega) arr]
        simp only [Option.some_bind]
        have hks : k - s + s = k := by omega
        rw [hks]
        rw [ftpGo_fig fig _ k hk64 arr hlen hcoeq]
        obtain ⟨arr', hrun, hlen', hagree⟩ := ih (k + 1) 0 (arr.set k (some fig))
          hlen2 hk1 (by omega) (by omega) (by omega) (by omega) hshift harr2
        simp only [Nat.sub_zero] at hrun
        exact ⟨arr', hrun, hlen', hcommon arr' hlen' hagree⟩

/-- Decoding the rendered placement field restores the position array. -/
theorem fen_to_position_rt (pos : List (Option Figure))
    (hlen : pos.length = 64) (hpc : posCoordsOK pos) :
    fen_to_position (position_to_fen pos) mkBoard = some pos := by
  unfold fen_to_position position_to_fen
  obtain ⟨arr', hrun, hlen', hagree⟩ := ptf_ftp pos 0 0
    (List.replicate 64 none) (by simp) (by simpa using hlen)
    (by omega) (fun _ => rfl) (by omega) (by omega)
    (fun j hj => by
      have := hpc j (by omega)
      simpa using this)
    (fun j h1 h2 => by
      rw [List.getD_eq_getElem?_getD, List.getElem?_replicate, if_pos h2]
      rfl)
  rw [show (0 : Nat) - 0 = 0 from rfl] at hrun
  rw [hrun]
  simp only [Option.map_some']
  congr 1
  apply List.ext_getElem?
  intro n
  by_cases hn : n < 64
  · have hag := hagree n hn
    rw [if_neg (by omega)] at hag
    rw [Nat.sub_zero] at hag
    have ha : arr'[n]? = some (arr'.getD n none) := by
      rw [List.getD_eq_getElem?_getD]
      cases hx : arr'[n]? with
      | none => exact absurd (List.getElem?_eq_none_iff.mp hx) (by omega)
      | some v => rfl
    have hp : pos[n]? = some (pos.getD n none) := by
      rw [List.getD_eq_getElem?_getD]
      cases hx : pos[n]? with
      | none => exact absurd (List.getElem?_eq_none_iff.mp hx) (by omega)
      | some v => rfl
    rw [ha, hp, hag]
  · rw [List.getElem?_eq_none (by omega), List.getElem?_eq_none (by omega)]

/-- C4: rendering is a section of parsing — a position string in canonical
form (the render of a well-formed state with in-range clocks) parses
successfully, and re-rendering the parsed state reproduces the string
byte for byte. -/
theorem C4_round_trip (g : Game) (hwf : WF g) (hck : ClocksOK g) :
    (from_str (to_fen g)).map to_fen = some (to_fen g) := by
  obtain ⟨hb, hlen, hpcoords, hepall⟩ := hwf
  obtain ⟨hc1, hc2⟩ := hck
  have hsp0 : ∀ c ∈ position_to_fen g.position, c ≠ ' ' :=
    ptfAux_no_space g.position 0 0 (by omega) (fun _ => rfl) (by omega)
  have hsp1 : ∀ c ∈ Color.render g.color, c ≠ ' ' :=
    (color_render_rt g.color).2.2
  have hsp2 : ∀ c ∈ Castling.render g.castling, c ≠ ' ' :=
    (castling_rt g.castling).2
  have hsp3 : ∀ c ∈ (match g.en_passant with
      | none => ['-'] | some c => coordRender c), c ≠ ' ' := by
    cases hep : g.en_passant with
    | none => decide
    | some e =>
      have hmem : e ∈ mkBoard := by
        rw [hep] at hepall
        simp only [Option.all_some] at hepall
        exact List.mem_of_elem_eq_true hepall
      exact (coord_render_rt e hmem).2
  have hsp4 := natRender_no_space g.half_move_clock
  have hsp5 := natRender_no_space g.full_move_clock
  have hfs : from_str (to_fen g) = some
      { board := mkBoard
        position := g.position
        figures := g.position.filterMap id
        color := g.color
        castling := g.castling
        en_passant := g.en_passant
        half_move_clock := g.half_move_clock
        full_move_clock := g.full_move_clock
        uci := ['0','0','0','0'] } := by
    have hto : to_fen g = joinSpace [position_to_fen g.position,
        Color.render g.color, Castling.render g.castling,
        (match g.en_passant with | none => ['-'] | some c => coordRender c),
        natRender g.half_move_clock, natRender g.full_move_clock] := rfl
    unfold from_str
    rw [hto, splitSpace_six hsp0 hsp1 hsp2 hsp3 hsp4 hsp5]
    simp only [List.get?, Option.some_bind, bind,
      fen_to_position_rt g.position hlen hpcoords,
      (color_render_rt g.color).1, (color_render_rt g.color).2.1,
      (castling_rt g.castling).1,
      parseU16_natRender g.half_move_clock hc1,
      parseU16_natRender g.full_move_clock hc2]
    cases hep : g.en_passant with
    | none =>
      simp only [Option.some_bind, pure, Option.some.injEq]
      rfl
    | some e =>
      have hmem : e ∈ mkBoard := by
        rw [hep] at hepall
        simp only [Option.all_some] at hepall
        exact List.mem_of_elem_eq_true hepall
      rw [if_neg (by simp [coordRender])]
      simp only [(coord_render_rt e hmem).1, Option.some_bind, pure,
        Option.some.injEq]
  rw [hfs]
  simp only [Option.map_some']
  rfl

/-- C4 witness: the round trip on the concrete parsed state `c5game`. -/
theorem C4_witness :
    WF c5game ∧ ClocksOK c5game ∧
    (from_str (to_fen c5game)).map to_fen = some (to_fen c5game) :=
  ⟨by decide, by decide, C4_round_trip c5game (by decide) (by decide)⟩

end FencyPgn
